import Mathlib

/-!
# tonutils-go `tlb.Coins`: decimal amounts

A shallow embedding of `tlb/coins.go`, and of `Cell.BeginParse` of
`tvm/cell/cell.go`.

* A Go `string` / `[]byte` is a `List Char`, one element per byte.  Every
  comparison the code makes is against an ASCII byte, so a statement over all
  `List Char` covers every Go byte string.
* A `*big.Int` is an `Option Int` (`none` is the nil pointer).
* A Go `int` that never leaves the range of `int` in the code (`decimals`,
  string lengths and their differences) is an `Int`.
* A function returning `(T, error)` returns `Except CoinsError T`; a method
  with a pointer receiver returns the receiver after the call together with the
  error, if any; a panic is `none`.

The parts of the Go standard library that the code calls
(`big.Int.SetString`, `big.Int.String`, `big.Int.Exp`, `big.Int.BitLen`,
`strings.SplitN`, `strings.Repeat`, `fmt.Sprintf("%q")`) are modelled from
their documented behaviour.
-/

namespace Tlb

/-! ## Standard library -/

/-- Value of a byte as a digit in `nat.scan` for bases up to 36: `'0'..'9'`
are 0..9, letters of either case are 10..35, every other byte is `MaxBase + 1`. -/
def digitVal (ch : Char) : Nat :=
  if '0' ≤ ch ∧ ch ≤ '9' then ch.toNat - '0'.toNat
  else if 'a' ≤ ch ∧ ch ≤ 'z' then ch.toNat - 'a'.toNat + 10
  else if 'A' ≤ ch ∧ ch ≤ 'Z' then ch.toNat - 'A'.toNat + 10
  else 63

/-- Magnitude read by `nat.scan`: the digits are accumulated most significant first. -/
def scanDigits (base : Nat) (s : List Char) : Nat :=
  s.foldl (fun acc ch => acc * base + digitVal ch) 0

/-- The `(*big.Int).SetString(s, base)` of math/big for `2 ≤ base ≤ 36`: an optional sign
`+` or `-`, then one or more digits of the base and nothing else.  `none` is
the `ok == false` result. -/
def SetString (s : List Char) (base : Nat) : Option Int :=
  match s with
  | [] => none
  | c :: rest =>
    let neg := decide (c = '-')
    let body := if c = '-' ∨ c = '+' then rest else s
    if body = [] then none
    else if body.all (fun ch => decide (digitVal ch < base)) then
      let m : Int := (scanDigits base body : Nat)
      some (if neg then -m else m)
    else none

/-- Decimal digits of a natural number, most significant first; `fuel` bounds
the number of digits. -/
def natDigits : Nat → Nat → List Char
  | 0, _ => []
  | fuel + 1, n =>
    if n < 10 then [Nat.digitChar n]
    else natDigits fuel (n / 10) ++ [Nat.digitChar (n % 10)]

/-- Decimal numeral of a natural number (`"0"` for zero, no leading zeros). -/
def natString (n : Nat) : List Char := natDigits (n + 1) n

/-- The `(*big.Int).String()` of math/big: the decimal numeral, with a leading `-` when negative. -/
def bigString (x : Int) : List Char :=
  if x < 0 then '-' :: natString x.natAbs else natString x.natAbs

/-- The `(*big.Int).Exp(x, y, nil)` of math/big: `x ^ y`, and `1` when `y ≤ 0`. -/
def bigExp (x y : Int) : Int := if y ≤ 0 then 1 else x ^ y.toNat

/-- Number of bits of a natural number; `fuel` bounds the number of bits. -/
def bitLenAux : Nat → Nat → Nat
  | 0, _ => 0
  | fuel + 1, n => if n = 0 then 0 else bitLenAux fuel (n / 2) + 1

/-- The `(*big.Int).BitLen()` of math/big: the length of the absolute value in bits, `0` for zero. -/
def BitLen (x : Int) : Nat := bitLenAux x.natAbs x.natAbs

/-- The `strings.SplitN(s, ".", 2)` call: the whole string when it has no `.`, else the
parts before and after the first `.`. -/
def SplitN2 (s : List Char) : List (List Char) :=
  match s.span (fun c => decide (c ≠ '.')) with
  | (a, []) => [a]
  | (a, _ :: b) => [a, b]

/-- Escape of one byte by `strconv.Quote` (ASCII part): the quote and the
backslash get a backslash, printable bytes stand for themselves, control
bytes are written as an escape. -/
def quoteByte (c : Char) : List Char :=
  if c = '"' then ['\\', '"']
  else if c = '\\' then ['\\', '\\']
  else if ' ' ≤ c ∧ c ≤ '~' then [c]
  else if c = '\n' then ['\\', 'n']
  else if c = '\r' then ['\\', 'r']
  else if c = '\t' then ['\\', 't']
  else if c.toNat = 7 then ['\\', 'a']
  else if c.toNat = 8 then ['\\', 'b']
  else if c.toNat = 12 then ['\\', 'f']
  else if c.toNat = 11 then ['\\', 'v']
  else ['\\', 'x', Nat.digitChar (c.toNat / 16 % 16), Nat.digitChar (c.toNat % 16)]

/-- The `fmt.Sprintf("%q", s)` call on an ASCII string: the escaped bytes
between double quotes. -/
def sprintfQ (s : List Char) : List Char :=
  '"' :: (s.flatMap quoteByte ++ ['"'])

/-! ## Coins -/

deriving instance DecidableEq for Except

/-- The errors of the package, one constructor per error value or message. -/
inductive CoinsError where
  /-- The `errInvalid` value, "invalid string". -/
  | invalidString
  /-- The "invalid decimals" message. -/
  | invalidDecimals
  /-- The "too big number for coins" message. -/
  | tooBig
  /-- The "invalid data" message of `UnmarshalJSON`. -/
  | invalidData
  /-- The "unsupported type for Coins" message of `Scan`. -/
  | unsupportedType
  /-- The "invalid numeric format" message of `Scan`. -/
  | invalidNumericFormat
  deriving DecidableEq, Repr

/-- The `Coins` struct: `decimals int` and `val *big.Int`. -/
structure Coins where
  decimals : Int
  val : Option Int
  deriving DecidableEq, Repr

/-- The loop "cut last zeroes" of `String`: `i` counts down from `len(a) - 1`;
the argument is `i + 1`, so `0` is the exit of the loop without a `break`. -/
def cutLoop (a : List Char) : Nat → List Char
  | 0 => a
  | i + 1 =>
    if a.getD i '0' = '.' then a.take i
    else if a.getD i '0' ≠ '0' then a.take (i + 1)
    else cutLoop a i

/-- The method `Coins.String`.  `none` is a panic: a slice bound out of range or a
negative `strings.Repeat` count. -/
def Coins.String (g : Coins) : Option (List Char) :=
  match g.val with
  | none => some ['0']
  | some v =>
    let a := bigString v
    if a = ['0'] then some a
    else
      let splitter : Int := (a.length : Int) - g.decimals
      if splitter ≤ 0 then
        let count : Int := g.decimals - (a.length : Int)
        if count < 0 then none
        else
          let a1 := ['0', '.'] ++ List.replicate count.toNat '0' ++ a
          some (cutLoop a1 a1.length)
      else if (a.length : Int) < splitter then none
      else
        let a1 := a.take splitter.toNat ++ ['.'] ++ a.drop splitter.toNat
        some (cutLoop a1 a1.length)

/-- The method `Coins.Nano`: the amount, `0` when unset. -/
def Coins.Nano (g : Coins) : Int := g.val.getD 0

/-- The method `Coins.Decimals`. -/
def Coins.Decimals (g : Coins) : Int := g.decimals

/-- The size check `uint((val.BitLen()+7)>>3) >= 16` of `FromNano` and `FromDecimal`. -/
def tooBigForCoins (x : Int) : Bool := decide (16 ≤ (BitLen x + 7) / 8)

/-- The function `FromNano`. -/
def FromNano (val : Int) (decimals : Int) : Except CoinsError Coins :=
  if tooBigForCoins val then .error .tooBig
  else .ok ⟨decimals, some val⟩

/-- The function `FromNanoTONStr`. -/
def FromNanoTONStr (val : List Char) : Except CoinsError Coins :=
  match SetString val 10 with
  | none => .error .invalidString
  | some v => .ok ⟨9, some v⟩

/-- Number of leading `'0'` bytes: the `leadZeroes` loop of `FromDecimal`. -/
def leadZeroes : List Char → Nat
  | [] => 0
  | sym :: rest => if sym ≠ '0' then 0 else leadZeroes rest + 1

/-- The function `FromDecimal`. -/
def FromDecimal (val : List Char) (decimals : Int) : Except CoinsError Coins :=
  if decimals < 0 ∨ decimals ≥ 128 then .error .invalidDecimals
  else
    match SplitN2 val with
    | [] => .error .invalidString
    | s0 :: tl =>
      match SetString s0 10 with
      | none => .error .invalidString
      | some hi0 =>
        let hi := hi0 * bigExp 10 decimals
        let finish (hi : Int) : Except CoinsError Coins :=
          if tooBigForCoins hi then .error .tooBig
          else .ok ⟨decimals, some hi⟩
        match tl with
        | [s1] =>
          let loStr := if (s1.length : Int) > decimals then s1.take decimals.toNat else s1
          let lz := leadZeroes loStr
          match SetString loStr 10 with
          | none => .error .invalidString
          | some lo0 =>
            let digits := (bigString lo0).length
            let lo := lo0 * bigExp 10 ((decimals - (lz : Int)) - (digits : Int))
            finish (hi + lo)
        | _ => finish hi

/-- The function `FromTON`. -/
def FromTON (val : List Char) : Except CoinsError Coins := FromDecimal val 9

/-- The method `Coins.MarshalJSON`. -/
def Coins.MarshalJSON (g : Coins) : Except CoinsError (List Char) :=
  .ok (sprintfQ (bigString g.Nano))

/-- The method `Coins.UnmarshalJSON`: the receiver after the call and the error, if any. -/
def Coins.UnmarshalJSON (g : Coins) (data : List Char) : Coins × Option CoinsError :=
  if data.length < 2 ∨ data.head? ≠ some '"' ∨ data.getLast? ≠ some '"' then
    (g, some .invalidData)
  else
    let data1 := (data.take (data.length - 1)).drop 1
    match FromNanoTONStr data1 with
    | .error err => (g, some err)
    | .ok coins => (coins, none)

/-- A value of type `any` as `Scan` tells them apart: nil, an `int64`, a `[]byte`, a
`string`, or a value of another dynamic type (named by its Go type). -/
inductive DriverValue where
  | nil
  | int64 (v : Int)
  | bytes (v : List Char)
  | string (v : List Char)
  | other (goType : List Char)
  deriving DecidableEq, Repr

/-- The method `Coins.Value`. -/
def Coins.Value (g : Coins) : Except CoinsError DriverValue :=
  match g.val with
  | none => .ok (.string ['0'])
  | some v => .ok (.string (bigString v))

/-- The method `Coins.Scan`: the receiver after the call and the error, if any. -/
def Coins.Scan (g : Coins) (value : DriverValue) : Coins × Option CoinsError :=
  match value with
  | .nil => (⟨g.decimals, some 0⟩, none)
  | .int64 v => (⟨g.decimals, some v⟩, none)
  | .other _ => (g, some .unsupportedType)
  | .bytes v =>
    match SetString v 10 with
    | none => (g, some .invalidNumericFormat)
    | some val => (⟨g.decimals, some val⟩, none)
  | .string v =>
    let hex := decide (v.take 2 = ['0', 'x'])
    let strVal := if hex then v.drop 2 else v
    let base := if hex then 16 else 10
    match SetString strVal base with
    | none => (g, some .invalidNumericFormat)
    | some val => (⟨g.decimals, some val⟩, none)

/-- The `(*big.Int).Cmp` of math/big: `-1`, `0` or `+1` as `x` is below, equal to or above `y`. -/
def bigCmp (x y : Int) : Int :=
  if x < y then -1 else if x = y then 0 else 1

/-- The method `Coins.Compare`.  `none` is the panic "invalid comparsion". -/
def Coins.Compare (g coins : Coins) : Option Int :=
  if g.decimals ≠ coins.decimals then none
  else some (bigCmp g.Nano coins.Nano)

/-! ## Cells -/

/-- The `Cell` struct of `tvm/cell`: `bitsSz`, `index`, `data` (one number per
byte) and `refs`.  A reference is a pointer to a cell that exists, and the
cells reached from a cell form a finite tree. -/
inductive Cell where
  | mk (bitsSz : Int) (index : Int) (data : List Nat) (refs : List Cell)

/-- Modelled from the spec: the declaration of the `LoadCell` struct (the
Cursor of the specification) is in a file of the package that is not among the
sources.  Its fields are those that the composite literal in `BeginParse`
fills: `bitsSz`, `loadedSz` (the bit read offset), `data` (the copy of the bit
buffer) and `refs` (the child cursors). -/
inductive LoadCell where
  | mk (bitsSz : Int) (loadedSz : Int) (data : List Nat) (refs : List LoadCell)

/-- Field `bitsSz` of a cell. -/
def Cell.bitsSz : Cell → Int
  | .mk b _ _ _ => b

/-- Field `data` of a cell. -/
def Cell.data : Cell → List Nat
  | .mk _ _ d _ => d

/-- Field `refs` of a cell. -/
def Cell.refs : Cell → List Cell
  | .mk _ _ _ r => r

/-- Field `bitsSz` of a cursor. -/
def LoadCell.bitsSz : LoadCell → Int
  | .mk b _ _ _ => b

/-- Field `loadedSz` of a cursor. -/
def LoadCell.loadedSz : LoadCell → Int
  | .mk _ l _ _ => l

/-- Field `data` of a cursor. -/
def LoadCell.data : LoadCell → List Nat
  | .mk _ _ d _ => d

/-- Field `refs` of a cursor. -/
def LoadCell.refs : LoadCell → List LoadCell
  | .mk _ _ _ r => r

mutual
/-- The method `Cell.BeginParse`: the data is copied, every reference is parsed
in turn, and the cursor starts at offset 0. -/
def Cell.BeginParse : Cell → LoadCell
  | .mk bitsSz _ data refs => .mk bitsSz 0 data (beginParseRefs refs)
/-- The loop of `BeginParse` over the references: `refs[i] = ref.BeginParse()`. -/
def beginParseRefs : List Cell → List LoadCell
  | [] => []
  | ref :: rest => ref.BeginParse :: beginParseRefs rest
end

/-! ## Vocabulary of the specification -/

/-- Value denoted by a string of decimal digits, read positionally. -/
def decimalValue : List Char → Nat
  | [] => 0
  | c :: cs => (c.toNat - 48) * 10 ^ cs.length + decimalValue cs

/-- A string of decimal digits. -/
def IsDigits (s : List Char) : Prop := ∀ c ∈ s, c.isDigit = true

/-- A base-10 numeral without leading zeros: one or more digits, the first of
which is `0` only in the numeral `"0"`. -/
def IsNumeral (s : List Char) : Prop :=
  s ≠ [] ∧ IsDigits s ∧ (s.head? = some '0' → s = ['0'])

/-- A valid base-10 integer text: an optional sign `+` or `-` followed by one or
more decimal digits. -/
def IsIntegerText (s : List Char) : Prop :=
  ∃ m : List Char, (s = m ∨ s = '-' :: m ∨ s = '+' :: m) ∧ m ≠ [] ∧ IsDigits m

/-- The string `s` is the base-10 numeral of the integer `x`: the numeral of
its magnitude without leading zeros, after a `-` when `x` is negative. -/
def IsNumeralOf (s : List Char) (x : Int) : Prop :=
  if x < 0 then ∃ m, s = '-' :: m ∧ IsNumeral m ∧ ((decimalValue m : Nat) : Int) = -x
  else IsNumeral s ∧ ((decimalValue s : Nat) : Int) = x

instance (s : List Char) : Decidable (IsDigits s) := by
  unfold IsDigits; infer_instance

instance (s : List Char) : Decidable (IsNumeral s) := by
  unfold IsNumeral; infer_instance

/-- The last `d` decimal digits of `m`, most significant first, zeros included. -/
def fixedDigits : Nat → Nat → List Char
  | 0, _ => []
  | d + 1, m => fixedDigits d (m / 10) ++ [Nat.digitChar (m % 10)]

/-! ## Digits -/

theorem digitVal_digitChar : ∀ k, k < 10 → digitVal (Nat.digitChar k) = k := by
  decide

theorem digitChar_toNat : ∀ k, k < 10 → (Nat.digitChar k).toNat = 48 + k := by
  decide

theorem isDigit_digitChar : ∀ k, k < 10 → (Nat.digitChar k).isDigit = true := by
  decide

theorem isDigit_iff (c : Char) : c.isDigit = true ↔ 48 ≤ c.toNat ∧ c.toNat ≤ 57 := by
  simp only [Char.isDigit, Char.toNat, UInt32.le_def, ge_iff_le, Bool.and_eq_true,
    decide_eq_true_eq, BitVec.le_def]
  exact Iff.rfl

theorem digit_cases (c : Char) (h : c.isDigit = true) : ∃ k, k < 10 ∧ c = Nat.digitChar k := by
  rw [isDigit_iff] at h
  have hc : Char.ofNat c.toNat = c := Char.ofNat_toNat c
  generalize c.toNat = n at h hc
  obtain ⟨h1, h2⟩ := h
  refine ⟨n - 48, by omega, ?_⟩
  rw [← hc]
  interval_cases n <;> rfl

theorem digitVal_of_isDigit (c : Char) (h : c.isDigit = true) :
    digitVal c = c.toNat - 48 ∧ digitVal c < 10 := by
  obtain ⟨k, hk, rfl⟩ := digit_cases c h
  rw [digitVal_digitChar k hk, digitChar_toNat k hk]
  omega

theorem digitChar_digitVal (c : Char) (h : c.isDigit = true) :
    Nat.digitChar (digitVal c) = c := by
  obtain ⟨k, hk, rfl⟩ := digit_cases c h
  rw [digitVal_digitChar k hk]

theorem isDigits_append {s t : List Char} : IsDigits (s ++ t) ↔ IsDigits s ∧ IsDigits t := by
  simp only [IsDigits, List.mem_append]
  constructor
  · intro h
    exact ⟨fun c hc => h c (Or.inl hc), fun c hc => h c (Or.inr hc)⟩
  · rintro ⟨h1, h2⟩ c (hc | hc)
    · exact h1 c hc
    · exact h2 c hc

theorem isDigits_cons {c : Char} {s : List Char} :
    IsDigits (c :: s) ↔ c.isDigit = true ∧ IsDigits s := by
  simp [IsDigits]

theorem isDigits_nil : IsDigits [] := by
  simp [IsDigits]

/-! ## Reading digits -/

theorem foldl_scan (b : Nat) (s : List Char) (a : Nat) :
    s.foldl (fun acc ch => acc * b + digitVal ch) a
      = a * b ^ s.length + s.foldl (fun acc ch => acc * b + digitVal ch) 0 := by
  induction s generalizing a with
  | nil => simp
  | cons c cs ih =>
    simp only [List.foldl_cons, List.length_cons]
    rw [ih (a * b + digitVal c), ih (0 * b + digitVal c)]
    ring

theorem scanDigits_nil (b : Nat) : scanDigits b [] = 0 := rfl

theorem scanDigits_cons (b : Nat) (c : Char) (cs : List Char) :
    scanDigits b (c :: cs) = digitVal c * b ^ cs.length + scanDigits b cs := by
  unfold scanDigits
  rw [List.foldl_cons, foldl_scan]
  ring

theorem scanDigits_append (b : Nat) (s t : List Char) :
    scanDigits b (s ++ t) = scanDigits b s * b ^ t.length + scanDigits b t := by
  unfold scanDigits
  rw [List.foldl_append, foldl_scan]

theorem scanDigits_eq_decimalValue (s : List Char) (h : IsDigits s) :
    scanDigits 10 s = decimalValue s := by
  induction s with
  | nil => rfl
  | cons c cs ih =>
    rw [isDigits_cons] at h
    rw [scanDigits_cons, decimalValue, ih h.2, (digitVal_of_isDigit c h.1).1]

theorem decimalValue_append (s t : List Char) :
    decimalValue (s ++ t) = decimalValue s * 10 ^ t.length + decimalValue t := by
  induction s with
  | nil => simp [decimalValue]
  | cons c cs ih =>
    rw [List.cons_append, decimalValue, decimalValue, ih, List.length_append, pow_add]
    ring

theorem decimalValue_lt (s : List Char) (h : IsDigits s) : decimalValue s < 10 ^ s.length := by
  induction s with
  | nil => simp [decimalValue]
  | cons c cs ih =>
    rw [isDigits_cons] at h
    have h1 := ih h.2
    have h2 := (isDigit_iff c).1 h.1
    have h3 : c.toNat - 48 ≤ 9 := by omega
    have h4 : (c.toNat - 48) * 10 ^ cs.length ≤ 9 * 10 ^ cs.length :=
      Nat.mul_le_mul_right _ h3
    rw [decimalValue, List.length_cons, pow_succ]
    omega

/-! ## Printing numbers -/

theorem natDigits_fuel (f1 : Nat) : ∀ (f2 n : Nat), n < f1 → n < f2 →
    natDigits f1 n = natDigits f2 n := by
  induction f1 with
  | zero => intro f2 n h; omega
  | succ f ih =>
    intro f2 n h1 h2
    cases f2 with
    | zero => omega
    | succ g =>
      unfold natDigits
      by_cases hn : n < 10
      · simp [hn]
      · simp only [hn, if_false]
        rw [ih g (n / 10) (by omega) (by omega)]

theorem natString_lt {n : Nat} (h : n < 10) : natString n = [Nat.digitChar n] := by
  simp [natString, natDigits, h]

theorem natString_ge {n : Nat} (h : 10 ≤ n) :
    natString n = natString (n / 10) ++ [Nat.digitChar (n % 10)] := by
  have hn : ¬ n < 10 := by omega
  unfold natString
  rw [natDigits]
  simp only [hn, if_false]
  rw [natDigits_fuel n (n / 10 + 1) (n / 10) (by omega) (by omega)]

theorem natString_ne_nil (n : Nat) : natString n ≠ [] := by
  by_cases h : n < 10
  · simp [natString_lt h]
  · simp [natString_ge (not_lt.1 h)]

theorem natString_isDigits (n : Nat) : IsDigits (natString n) := by
  induction n using Nat.strong_induction_on with
  | _ n ih =>
    by_cases h : n < 10
    · rw [natString_lt h]
      intro c hc
      rw [List.mem_singleton] at hc
      rw [hc]
      exact isDigit_digitChar n h
    · rw [natString_ge (not_lt.1 h), isDigits_append]
      refine ⟨ih (n / 10) (by omega), ?_⟩
      intro c hc
      rw [List.mem_singleton] at hc
      rw [hc]
      exact isDigit_digitChar _ (Nat.mod_lt _ (by norm_num))

theorem scanDigits_natString (n : Nat) : scanDigits 10 (natString n) = n := by
  induction n using Nat.strong_induction_on with
  | _ n ih =>
    by_cases h : n < 10
    · rw [natString_lt h, scanDigits_cons, scanDigits_nil, digitVal_digitChar n h]
      simp
    · rw [natString_ge (not_lt.1 h), scanDigits_append, ih (n / 10) (by omega), scanDigits_cons,
        scanDigits_nil, digitVal_digitChar _ (Nat.mod_lt _ (by norm_num))]
      simp only [List.length_singleton, List.length_nil, pow_one, pow_zero]
      omega

theorem decimalValue_natString (n : Nat) : decimalValue (natString n) = n := by
  rw [← scanDigits_eq_decimalValue _ (natString_isDigits n), scanDigits_natString]

/-- A digit string that does not start with `0` is the numeral of its value, which is positive. -/
theorem natString_decimalValue_pos (s : List Char) :
    s ≠ [] → IsDigits s → s.head? ≠ some '0' →
      natString (decimalValue s) = s ∧ 0 < decimalValue s := by
  induction s using List.reverseRecOn with
  | nil => intro h; exact absurd rfl h
  | append_singleton t c ih =>
    intro _ hd hh
    rw [isDigits_append] at hd
    obtain ⟨k, hk, rfl⟩ := digit_cases c (hd.2 c (List.mem_singleton_self c))
    have hv : decimalValue (t ++ [Nat.digitChar k]) = decimalValue t * 10 + k := by
      rw [decimalValue_append]
      simp [decimalValue, digitChar_toNat k hk]
    rw [hv]
    cases t with
    | nil =>
      have hk0 : k ≠ 0 := by
        rintro rfl
        exact hh rfl
      simp only [decimalValue, Nat.zero_mul, Nat.zero_add]
      exact ⟨natString_lt hk, Nat.pos_of_ne_zero hk0⟩
    | cons a t1 =>
      have hh1 : (a :: t1).head? ≠ some '0' := by simpa using hh
      obtain ⟨h1, h2⟩ := ih (by simp) hd.1 hh1
      refine ⟨?_, by omega⟩
      rw [natString_ge (by omega)]
      have e1 : (decimalValue (a :: t1) * 10 + k) / 10 = decimalValue (a :: t1) := by omega
      have e2 : (decimalValue (a :: t1) * 10 + k) % 10 = k := by omega
      rw [e1, e2, h1]

/-- Printing undoes reading on numerals without leading zeros. -/
theorem natString_decimalValue (s : List Char) (h : IsNumeral s) :
    natString (decimalValue s) = s := by
  obtain ⟨h1, h2, h3⟩ := h
  by_cases h0 : s.head? = some '0'
  · rw [h3 h0]
    rfl
  · exact (natString_decimalValue_pos s h1 h2 h0).1

/-! ## Fixed-width digits -/

theorem fixedDigits_length (d m : Nat) : (fixedDigits d m).length = d := by
  induction d generalizing m with
  | zero => rfl
  | succ d ih => simp [fixedDigits, ih]

theorem fixedDigits_isDigits (d m : Nat) : IsDigits (fixedDigits d m) := by
  induction d generalizing m with
  | zero => exact isDigits_nil
  | succ d ih =>
    rw [fixedDigits, isDigits_append]
    refine ⟨ih _, ?_⟩
    intro c hc
    rw [List.mem_singleton] at hc
    rw [hc]
    exact isDigit_digitChar _ (Nat.mod_lt _ (by norm_num))

theorem fixedDigits_mul_pow (k j m : Nat) :
    fixedDigits (k + j) (m * 10 ^ j) = fixedDigits k m ++ List.replicate j '0' := by
  induction j with
  | zero => simp
  | succ j ih =>
    have e1 : m * 10 ^ (j + 1) / 10 = m * 10 ^ j := by
      rw [pow_succ, ← Nat.mul_assoc]
      exact Nat.mul_div_cancel _ (by norm_num)
    have e2 : m * 10 ^ (j + 1) % 10 = 0 := by
      rw [pow_succ, ← Nat.mul_assoc]
      exact Nat.mul_mod_left _ _
    rw [← Nat.add_assoc, fixedDigits, e1, e2, ih, List.replicate_succ', List.append_assoc]
    rfl

theorem fixedDigits_zero (d : Nat) : fixedDigits d 0 = List.replicate d '0' := by
  have h := fixedDigits_mul_pow 0 d 0
  simpa [fixedDigits] using h

theorem fixedDigits_add_mul (d a b : Nat) :
    fixedDigits d (a * 10 ^ d + b) = fixedDigits d b := by
  induction d generalizing a b with
  | zero => rfl
  | succ d ih =>
    have e0 : a * 10 ^ (d + 1) = a * 10 ^ d * 10 := by
      rw [pow_succ, Nat.mul_assoc]
    have e1 : (a * 10 ^ (d + 1) + b) / 10 = a * 10 ^ d + b / 10 := by
      rw [e0]
      omega
    have e2 : (a * 10 ^ (d + 1) + b) % 10 = b % 10 := by
      rw [e0]
      omega
    rw [fixedDigits, fixedDigits, e1, e2, ih]

theorem fixedDigits_of_dvd (d n : Nat) (h : 10 ^ d ∣ n) :
    fixedDigits d n = List.replicate d '0' := by
  obtain ⟨q, rfl⟩ := h
  have := fixedDigits_add_mul d q 0
  rw [Nat.add_zero, Nat.mul_comm] at this
  rw [this, fixedDigits_zero]

theorem decimalValue_snoc (t : List Char) (k : Nat) (hk : k < 10) :
    decimalValue (t ++ [Nat.digitChar k]) = decimalValue t * 10 + k := by
  rw [decimalValue_append]
  simp [decimalValue, digitChar_toNat k hk]

theorem decimalValue_fixedDigits (d n : Nat) : decimalValue (fixedDigits d n) = n % 10 ^ d := by
  induction d generalizing n with
  | zero => simp [fixedDigits, decimalValue, Nat.mod_one]
  | succ d ih =>
    rw [fixedDigits, decimalValue_snoc _ _ (Nat.mod_lt _ (by norm_num)), ih, pow_succ,
      Nat.mul_comm (10 ^ d) 10, Nat.mod_mul]
    ring

theorem decimalValue_replicate_zero (j : Nat) : decimalValue (List.replicate j '0') = 0 := by
  induction j with
  | zero => rfl
  | succ j ih =>
    rw [List.replicate_succ, decimalValue, ih]
    have : '0'.toNat - 48 = 0 := by decide
    rw [this]
    simp

theorem fixedDigits_decimalValue (s : List Char) :
    IsDigits s → fixedDigits s.length (decimalValue s) = s := by
  induction s using List.reverseRecOn with
  | nil => intro _; rfl
  | append_singleton t c ih =>
    intro hd
    rw [isDigits_append] at hd
    obtain ⟨k, hk, rfl⟩ := digit_cases c (hd.2 c (List.mem_singleton_self c))
    have e1 : (decimalValue t * 10 + k) / 10 = decimalValue t := by omega
    have e2 : (decimalValue t * 10 + k) % 10 = k := by omega
    rw [decimalValue_snoc t k hk, List.length_append, List.length_singleton, fixedDigits,
      e1, e2, ih hd.1]

/-- A number of more than `d` digits prints as its quotient by `10 ^ d` followed
by its last `d` digits. -/
theorem natString_split (d : Nat) : ∀ n, 10 ^ d ≤ n →
    natString n = natString (n / 10 ^ d) ++ fixedDigits d n := by
  induction d with
  | zero => intro n _; simp [fixedDigits]
  | succ d ih =>
    intro n hn
    have h10 : 10 ≤ n := by
      have : 10 ^ 1 ≤ 10 ^ (d + 1) := Nat.pow_le_pow_right (by norm_num) (by omega)
      omega
    have hd : 10 ^ d ≤ n / 10 := by
      rw [Nat.le_div_iff_mul_le (by norm_num)]
      rw [pow_succ] at hn
      exact hn
    rw [natString_ge h10, ih (n / 10) hd, fixedDigits, Nat.div_div_eq_div_mul, pow_succ,
      Nat.mul_comm 10 (10 ^ d), List.append_assoc]

/-- A positive number below `10 ^ d` has at most `d` digits, and its last `d`
digits are its numeral padded with zeros on the left. -/
theorem fixedDigits_small (d : Nat) : ∀ n, 0 < n → n < 10 ^ d →
    (natString n).length ≤ d ∧
      fixedDigits d n = List.replicate (d - (natString n).length) '0' ++ natString n := by
  induction d with
  | zero => intro n h0 h1; simp at h1; omega
  | succ d ih =>
    intro n h0 h1
    by_cases h : n < 10
    · have e1 : n / 10 = 0 := by omega
      have e2 : n % 10 = n := by omega
      rw [natString_lt h, fixedDigits, e1, e2, fixedDigits_zero]
      simp
    · have hd : n / 10 < 10 ^ d := by
        rw [Nat.div_lt_iff_lt_mul (by norm_num)]
        rw [pow_succ] at h1
        exact h1
      obtain ⟨i1, i2⟩ := ih (n / 10) (by omega) hd
      rw [natString_ge (not_lt.1 h), fixedDigits, i2]
      simp only [List.length_append, List.length_singleton, List.append_assoc]
      refine ⟨by omega, ?_⟩
      congr 2
      omega

theorem natString_length_gt (d n : Nat) (h : 10 ^ d ≤ n) : d < (natString n).length := by
  rw [natString_split d n h, List.length_append, fixedDigits_length]
  have := List.length_pos.2 (natString_ne_nil (n / 10 ^ d))
  omega

theorem natString_eq_zero_iff (n : Nat) : natString n = ['0'] ↔ n = 0 := by
  constructor
  · intro h
    have := decimalValue_natString n
    rw [h] at this
    exact this.symm
  · rintro rfl
    rfl

theorem bigString_ofNat (n : Nat) : bigString (n : Int) = natString n := by
  simp [bigString]

/-! ## The loop that cuts trailing zeros -/

theorem cutLoop_zeros (p z : List Char) (hz : ∀ c ∈ z, c = '0') :
    ∀ j, j ≤ z.length → cutLoop (p ++ z) (p.length + j) = cutLoop (p ++ z) p.length := by
  intro j
  induction j with
  | zero => intro _; rfl
  | succ j ih =>
    intro hj
    have hget : (p ++ z).getD (p.length + j) '0' = '0' := by
      rw [List.getD_eq_getElem?_getD, List.getElem?_append_right (by omega)]
      simp only [Nat.add_sub_cancel_left]
      rw [List.getElem?_eq_getElem (by omega)]
      exact hz _ (List.getElem_mem _)
    rw [← Nat.add_assoc, cutLoop, hget]
    simp only [ne_eq, not_true_eq_false, if_false]
    rw [if_neg (by decide)]
    exact ih (by omega)

theorem cutLoop_dot (p z : List Char) (hz : ∀ c ∈ z, c = '0') :
    cutLoop (p ++ '.' :: z) (p ++ '.' :: z).length = p := by
  have h := cutLoop_zeros (p ++ ['.']) z hz z.length (le_refl _)
  simp only [List.append_assoc, List.singleton_append, List.length_append,
    List.length_singleton] at h
  have hl : (p ++ '.' :: z).length = p.length + 1 + z.length := by
    simp only [List.length_append, List.length_cons]
    omega
  rw [hl, h, cutLoop]
  have hget : (p ++ '.' :: z).getD p.length '0' = '.' := by
    rw [List.getD_eq_getElem?_getD, List.getElem?_append_right (le_refl _)]
    simp
  rw [if_pos hget]
  simp

theorem cutLoop_digit (p z : List Char) (c : Char) (h0 : c ≠ '0') (h1 : c ≠ '.')
    (hz : ∀ x ∈ z, x = '0') :
    cutLoop (p ++ c :: z) (p ++ c :: z).length = p ++ [c] := by
  have h := cutLoop_zeros (p ++ [c]) z hz z.length (le_refl _)
  simp only [List.append_assoc, List.singleton_append, List.length_append,
    List.length_singleton] at h
  have hl : (p ++ c :: z).length = p.length + 1 + z.length := by
    simp only [List.length_append, List.length_cons]
    omega
  rw [hl, h, cutLoop]
  have hget : (p ++ c :: z).getD p.length '0' = c := by
    rw [List.getD_eq_getElem?_getD, List.getElem?_append_right (le_refl _)]
    simp
  rw [hget, if_neg h1, if_pos h0]
  rw [List.take_append_eq_append_take]
  simp

/-! ## Printing an amount -/

/-- The text `String` builds before it cuts the trailing zeros: the numeral of
the whole units, the point, and the `d` digits of the fraction. -/
theorem string_pos (d v : Nat) (hv : 0 < v) :
    Coins.String ⟨(d : Int), some (v : Int)⟩
      = some (cutLoop (natString (v / 10 ^ d) ++ '.' :: fixedDigits d v)
          (natString (v / 10 ^ d) ++ '.' :: fixedDigits d v).length) := by
  have hne : natString v ≠ ['0'] := by
    rw [Ne, natString_eq_zero_iff]
    omega
  unfold Coins.String
  simp only [bigString_ofNat, if_neg hne]
  by_cases hlt : v < 10 ^ d
  · obtain ⟨i1, i2⟩ := fixedDigits_small d v hv hlt
    have hs : ((natString v).length : Int) - (d : Int) ≤ 0 := by omega
    have hc : ¬ ((d : Int) - ((natString v).length : Int) < 0) := by omega
    have ht : ((d : Int) - ((natString v).length : Int)).toNat = d - (natString v).length := by
      omega
    rw [if_pos hs, if_neg hc, ht, Nat.div_eq_of_lt hlt, i2]
    rfl
  · have hge : 10 ^ d ≤ v := not_lt.1 hlt
    have hlen := natString_length_gt d v hge
    have hsplit := natString_split d v hge
    have hs : ¬ (((natString v).length : Int) - (d : Int) ≤ 0) := by omega
    have hc : ¬ (((natString v).length : Int) < ((natString v).length : Int) - (d : Int)) := by
      omega
    have hl : (natString (v / 10 ^ d)).length = (natString v).length - d := by
      have := congrArg List.length hsplit
      rw [List.length_append, fixedDigits_length] at this
      omega
    have ht : (((natString v).length : Int) - (d : Int)).toNat
        = (natString (v / 10 ^ d)).length := by
      omega
    rw [if_neg hs, if_neg hc, ht]
    have e1 : (natString v).take (natString (v / 10 ^ d)).length = natString (v / 10 ^ d) := by
      conv_lhs => rw [hsplit]
      exact List.take_left' rfl
    have e2 : (natString v).drop (natString (v / 10 ^ d)).length = fixedDigits d v := by
      conv_lhs => rw [hsplit]
      exact List.drop_left' rfl
    rw [e1, e2]
    simp

theorem string_zero (d : Int) : Coins.String ⟨d, some 0⟩ = some ['0'] := rfl

theorem natString_head (n : Nat) (hn : 0 < n) : (natString n).head? ≠ some '0' := by
  induction n using Nat.strong_induction_on with
  | _ n ih =>
    by_cases h : n < 10
    · rw [natString_lt h]
      intro hc
      simp only [List.head?_cons, Option.some.injEq] at hc
      have := digitVal_digitChar n h
      rw [hc] at this
      have h0 : digitVal '0' = 0 := by decide
      omega
    · rw [natString_ge (not_lt.1 h)]
      have hne := natString_ne_nil (n / 10)
      have := ih (n / 10) (by omega) (by omega)
      cases hq : natString (n / 10) with
      | nil => exact absurd hq hne
      | cons a t =>
        rw [hq] at this
        simpa using this

theorem natString_isNumeral (n : Nat) : IsNumeral (natString n) := by
  refine ⟨natString_ne_nil n, natString_isDigits n, ?_⟩
  intro h
  rcases Nat.eq_zero_or_pos n with rfl | hn
  · rfl
  · exact absurd h (natString_head n hn)

theorem decimalValue_zeros (l : List Char) (h : ∀ x ∈ l, x = '0') : decimalValue l = 0 := by
  rw [List.eq_replicate_of_mem h, decimalValue_replicate_zero]

theorem exists_last_nonzero (l : List Char) :
    (∃ x ∈ l, x ≠ '0') → ∃ Y c Z, l = Y ++ c :: Z ∧ c ≠ '0' ∧ ∀ x ∈ Z, x = '0' := by
  induction l using List.reverseRecOn with
  | nil => rintro ⟨x, hx, _⟩; simp at hx
  | append_singleton t a ih =>
    rintro ⟨x, hx, hx0⟩
    by_cases ha : a = '0'
    · have hxt : x ∈ t := by
        rcases List.mem_append.1 hx with h | h
        · exact h
        · rw [List.mem_singleton] at h
          exact absurd (h.trans ha) hx0
      obtain ⟨Y, c, Z, e, hc, hz⟩ := ih ⟨x, hxt, hx0⟩
      refine ⟨Y, c, Z ++ [a], by rw [e]; simp, hc, ?_⟩
      intro y hy
      rcases List.mem_append.1 hy with h | h
      · exact hz y h
      · rw [List.mem_singleton] at h
        exact h.trans ha
    · exact ⟨t, a, [], rfl, ha, by simp⟩

/-- When the amount is not a whole number of units, `String` prints the whole
units, the point, and the fraction digits up to the last one that is not zero. -/
theorem string_frac (d v : Nat) (hnd : ¬ 10 ^ d ∣ v) :
    ∃ Y c Z, fixedDigits d v = Y ++ c :: Z ∧ c ≠ '0' ∧ (∀ x ∈ Z, x = '0') ∧
      Coins.String ⟨(d : Int), some (v : Int)⟩
        = some (natString (v / 10 ^ d) ++ '.' :: (Y ++ [c])) := by
  have hv : 0 < v := by
    rcases Nat.eq_zero_or_pos v with rfl | h
    · exact absurd (dvd_zero _) hnd
    · exact h
  have hnz : ∃ x ∈ fixedDigits d v, x ≠ '0' := by
    by_contra hcon
    push_neg at hcon
    have h0 := decimalValue_zeros _ hcon
    rw [decimalValue_fixedDigits] at h0
    exact hnd (Nat.dvd_of_mod_eq_zero h0)
  obtain ⟨Y, c, Z, e, hc, hz⟩ := exists_last_nonzero _ hnz
  refine ⟨Y, c, Z, e, hc, hz, ?_⟩
  have hcd : c.isDigit = true := by
    apply fixedDigits_isDigits d v
    rw [e]
    simp
  have hdot : c ≠ '.' := by
    rintro rfl
    exact absurd hcd (by decide)
  rw [string_pos d v hv, e]
  have := cutLoop_digit (natString (v / 10 ^ d) ++ '.' :: Y) Z c hc hdot hz
  simp only [List.append_assoc, List.cons_append] at this
  rw [this]

/-- When the amount is a whole number of units, `String` prints their numeral. -/
theorem string_whole (d v : Nat) (hdv : 10 ^ d ∣ v) :
    Coins.String ⟨(d : Int), some (v : Int)⟩ = some (natString (v / 10 ^ d)) := by
  rcases Nat.eq_zero_or_pos v with rfl | hv
  · simp only [Nat.zero_div]
    rfl
  · rw [string_pos d v hv, fixedDigits_of_dvd d v hdv]
    rw [cutLoop_dot _ _ (fun c hc => List.eq_of_mem_replicate hc)]

theorem isDigits_count_dot (s : List Char) (h : IsDigits s) : s.count '.' = 0 := by
  rw [List.count_eq_zero]
  intro hm
  exact absurd (h _ hm) (by decide)

theorem takeWhile_digits (s t : List Char) (h : IsDigits s) :
    (s ++ '.' :: t).takeWhile (fun c => decide (c ≠ '.')) = s := by
  induction s with
  | nil => simp
  | cons a s ih =>
    rw [isDigits_cons] at h
    have ha : a ≠ '.' := by
      rintro rfl
      exact absurd h.1 (by decide)
    have := ih h.2
    simp only [List.cons_append, List.takeWhile_cons, ha, ne_eq, not_false_eq_true,
      decide_True, if_true, List.cons.injEq, true_and]
    simpa using this

/-- C6. `String` prints the shortest decimal form.  For a Coins with decimals
`d ≥ 0` (in particular `d` in `[0,128)`) and non-negative amount `v` (an unset
amount is `0`): if `v` is a multiple of `10^d` the result is the base-10 numeral
of `v / 10^d` (digits only, no leading zero); otherwise the result has exactly
one `.`, a non-empty part before it, and a last character that is not `0`. -/
theorem string_shortest_form (g : Coins) (d v : Nat) (hd : g.decimals = (d : Int))
    (hv : g.Nano = (v : Int)) :
    (10 ^ d ∣ v → ∃ s, g.String = some s ∧ IsNumeral s ∧ decimalValue s = v / 10 ^ d) ∧
    (¬ 10 ^ d ∣ v → ∃ s, g.String = some s ∧ s.count '.' = 1 ∧
      s.takeWhile (fun c => decide (c ≠ '.')) ≠ [] ∧
      s.getLast? ≠ none ∧ s.getLast? ≠ some '0') := by
  obtain ⟨gd, gv⟩ := g
  simp only at hd
  subst hd
  cases gv with
  | none =>
    have hv0 : v = 0 := by
      simp only [Coins.Nano, Option.getD_none] at hv
      omega
    subst hv0
    constructor
    · intro _
      exact ⟨['0'], rfl, by decide, by simp [decimalValue]⟩
    · intro h
      exact absurd (dvd_zero _) h
  | some x =>
    simp only [Coins.Nano, Option.getD_some] at hv
    subst hv
    constructor
    · intro hdv
      exact ⟨_, string_whole d v hdv, natString_isNumeral _, decimalValue_natString _⟩
    · intro hnd
      obtain ⟨Y, c, Z, e, hc, _, hs⟩ := string_frac d v hnd
      have hfd := fixedDigits_isDigits d v
      rw [e, isDigits_append, isDigits_cons] at hfd
      refine ⟨_, hs, ?_, ?_, ?_, ?_⟩
      · rw [List.count_append, List.count_cons, List.count_append, List.count_singleton,
          isDigits_count_dot _ (natString_isDigits _), isDigits_count_dot _ hfd.1]
        have hcd : c ≠ '.' := by
          rintro rfl
          exact absurd hfd.2.1 (by decide)
        simp [hcd]
      · rw [takeWhile_digits _ _ (natString_isDigits _)]
        exact natString_ne_nil _
      · simp [List.getLast?_append, List.getLast?_cons_cons]
      · have : (natString (v / 10 ^ d) ++ '.' :: (Y ++ [c])).getLast? = some c := by
          rw [← List.cons_append, ← List.append_assoc, List.getLast?_append]
          simp
        rw [this]
        simpa using hc

/-! ## Reading an amount -/

theorem setString_digits (s : List Char) (hne : s ≠ []) (hd : IsDigits s) :
    SetString s 10 = some ((decimalValue s : Nat) : Int) := by
  cases s with
  | nil => exact absurd rfl hne
  | cons c rest =>
    have hc : c.isDigit = true := hd c (List.mem_cons_self _ _)
    have h1 : c ≠ '-' := by
      rintro rfl
      exact absurd hc (by decide)
    have h2 : c ≠ '+' := by
      rintro rfl
      exact absurd hc (by decide)
    have hall : (c :: rest).all (fun ch => decide (digitVal ch < 10)) = true := by
      rw [List.all_eq_true]
      intro x hx
      exact decide_eq_true (digitVal_of_isDigit x (hd x hx)).2
    unfold SetString
    simp only [h1, h2, or_self, if_false, decide_False, Bool.false_eq_true]
    rw [if_neg (by simp), if_pos hall, scanDigits_eq_decimalValue _ hd]

theorem setString_nil (b : Nat) : SetString [] b = none := rfl

theorem span_no_dot (s t : List Char) (h : ∀ c ∈ s, c ≠ '.') :
    (s ++ '.' :: t).span (fun c => decide (c ≠ '.')) = (s, '.' :: t) := by
  rw [List.span_eq_take_drop]
  induction s with
  | nil => simp
  | cons a s ih =>
    have ha : a ≠ '.' := h a (List.mem_cons_self _ _)
    have := ih (fun c hc => h c (List.mem_cons_of_mem _ hc))
    simp only [Prod.mk.injEq] at this
    simp only [List.cons_append, List.takeWhile_cons, List.dropWhile_cons, ha, ne_eq,
      not_false_eq_true, decide_True, if_true, Prod.mk.injEq, List.cons.injEq, true_and]
    exact this

theorem span_no_dot_only (s : List Char) (h : ∀ c ∈ s, c ≠ '.') :
    s.span (fun c => decide (c ≠ '.')) = (s, []) := by
  rw [List.span_eq_take_drop]
  induction s with
  | nil => simp
  | cons a s ih =>
    have ha : a ≠ '.' := h a (List.mem_cons_self _ _)
    have := ih (fun c hc => h c (List.mem_cons_of_mem _ hc))
    simp only [Prod.mk.injEq] at this
    simp only [List.takeWhile_cons, List.dropWhile_cons, ha, ne_eq,
      not_false_eq_true, decide_True, if_true, Prod.mk.injEq, List.cons.injEq, true_and]
    exact this

theorem splitN2_dot (a b : List Char) (h : ∀ c ∈ a, c ≠ '.') :
    SplitN2 (a ++ '.' :: b) = [a, b] := by
  unfold SplitN2
  rw [span_no_dot a b h]

theorem splitN2_no_dot (a : List Char) (h : ∀ c ∈ a, c ≠ '.') : SplitN2 a = [a] := by
  unfold SplitN2
  rw [span_no_dot_only a h]

theorem isDigits_no_dot (s : List Char) (h : IsDigits s) : ∀ c ∈ s, c ≠ '.' := by
  rintro c hc rfl
  exact absurd (h _ hc) (by decide)

theorem splitN2_frac (I F : List Char) (h : IsDigits I) : SplitN2 (I ++ '.' :: F) = [I, F] :=
  splitN2_dot I F (isDigits_no_dot I h)

theorem splitN2_whole (I : List Char) (h : IsDigits I) : SplitN2 I = [I] :=
  splitN2_no_dot I (isDigits_no_dot I h)

theorem bitLenAux_le (f : Nat) : ∀ n k, n ≤ f → (bitLenAux f n ≤ k ↔ n < 2 ^ k) := by
  induction f with
  | zero =>
    intro n k hn
    have : n = 0 := by omega
    subst this
    simp [bitLenAux]
  | succ f ih =>
    intro n k hn
    unfold bitLenAux
    by_cases h0 : n = 0
    · subst h0
      simp
    · rw [if_neg h0]
      cases k with
      | zero =>
        simp only [pow_zero, Nat.lt_one_iff]
        omega
      | succ k =>
        rw [Nat.add_le_add_iff_right, ih (n / 2) k (by omega), pow_succ,
          Nat.div_lt_iff_lt_mul (by norm_num)]

/-- The size check refuses exactly the amounts of magnitude `2^120` and more. -/
theorem tooBigForCoins_iff (x : Int) : tooBigForCoins x = true ↔ 2 ^ 120 ≤ x.natAbs := by
  unfold tooBigForCoins BitLen
  rw [decide_eq_true_iff]
  have h := bitLenAux_le x.natAbs x.natAbs 120 (le_refl _)
  constructor
  · intro h1
    by_contra h2
    have := h.2 (not_le.1 h2)
    omega
  · intro h1
    by_contra h2
    have h3 : bitLenAux x.natAbs x.natAbs ≤ 120 := by omega
    have := h.1 h3
    omega

theorem tooBigForCoins_ofNat (n : Nat) (h : n < 2 ^ 120) : tooBigForCoins (n : Int) = false := by
  rw [← Bool.not_eq_true, tooBigForCoins_iff]
  simp only [Int.natAbs_ofNat]
  omega

theorem bigExp_ofNat (e : Nat) : bigExp 10 (e : Int) = ((10 ^ e : Nat) : Int) := by
  unfold bigExp
  by_cases h : (e : Int) ≤ 0
  · have : e = 0 := by omega
    subst this
    simp
  · rw [if_neg h]
    simp

theorem leadZeroes_digits (s : List Char) : IsDigits s → decimalValue s ≠ 0 →
    (natString (decimalValue s)).length + leadZeroes s = s.length := by
  induction s with
  | nil => intro _ h; exact absurd rfl h
  | cons c t ih =>
    intro hd hv
    by_cases hc : c = '0'
    · subst hc
      rw [isDigits_cons] at hd
      have e : decimalValue ('0' :: t) = decimalValue t := by
        rw [decimalValue]
        have : '0'.toNat - 48 = 0 := by decide
        rw [this]
        simp
      rw [e] at hv ⊢
      have := ih hd.2 hv
      simp only [leadZeroes, ne_eq, not_true_eq_false, if_false, List.length_cons]
      omega
    · have := (natString_decimalValue_pos (c :: t) (by simp) hd (by simpa using hc)).1
      rw [this]
      simp [leadZeroes, hc]

theorem fromDecimal_whole (d : Nat) (hd : d < 128) (I : List Char) (hI : I ≠ [])
    (hId : IsDigits I) :
    FromDecimal I (d : Int)
      = if tooBigForCoins ((decimalValue I * 10 ^ d : Nat) : Int) then .error .tooBig
        else .ok ⟨(d : Int), some ((decimalValue I * 10 ^ d : Nat) : Int)⟩ := by
  have hdec : ¬ ((d : Int) < 0 ∨ (d : Int) ≥ 128) := by omega
  unfold FromDecimal
  rw [if_neg hdec, splitN2_whole I hId]
  simp only [setString_digits I hI hId, bigExp_ofNat]
  push_cast
  rfl

theorem fromDecimal_frac (d : Nat) (hd1 : 1 ≤ d) (hd : d < 128) (I F : List Char) (hI : I ≠ [])
    (hId : IsDigits I) (hF : F ≠ []) (hFd : IsDigits F) :
    FromDecimal (I ++ '.' :: F) (d : Int)
      = if tooBigForCoins ((decimalValue I * 10 ^ d
            + decimalValue (F.take d) * 10 ^ (d - (F.take d).length) : Nat) : Int)
        then .error .tooBig
        else .ok ⟨(d : Int), some ((decimalValue I * 10 ^ d
            + decimalValue (F.take d) * 10 ^ (d - (F.take d).length) : Nat) : Int)⟩ := by
  have hdec : ¬ ((d : Int) < 0 ∨ (d : Int) ≥ 128) := by omega
  have hlo : (if ((F.length : Int) > (d : Int)) then F.take (d : Int).toNat else F)
      = F.take d := by
    by_cases h : (F.length : Int) > (d : Int)
    · rw [if_pos h]
      simp
    · rw [if_neg h, List.take_of_length_le (by omega)]
  have hTd : IsDigits (F.take d) := fun c hc => hFd c (List.mem_of_mem_take hc)
  have hTne : F.take d ≠ [] := by
    cases F with
    | nil => exact absurd rfl hF
    | cons a t =>
      obtain ⟨e, rfl⟩ : ∃ e, d = e + 1 := ⟨d - 1, by omega⟩
      simp
  have hTl : (F.take d).length ≤ d := by
    rw [List.length_take]
    omega
  have hlow : ((decimalValue (F.take d) : Nat) : Int) * bigExp 10
        (((d : Int) - (leadZeroes (F.take d) : Int))
          - ((bigString ((decimalValue (F.take d) : Nat) : Int)).length : Int))
      = ((decimalValue (F.take d) * 10 ^ (d - (F.take d).length) : Nat) : Int) := by
    by_cases h0 : decimalValue (F.take d) = 0
    · rw [h0]
      simp
    · have hl := leadZeroes_digits (F.take d) hTd h0
      rw [bigString_ofNat]
      have he : ((d : Int) - (leadZeroes (F.take d) : Int))
          - ((natString (decimalValue (F.take d))).length : Int)
          = ((d - (F.take d).length : Nat) : Int) := by
        omega
      rw [he, bigExp_ofNat]
      push_cast
      rfl
  unfold FromDecimal
  rw [if_neg hdec, splitN2_frac I F hId]
  simp only [setString_digits I hI hId, hlo, setString_digits _ hTne hTd, bigExp_ofNat, hlow]
  push_cast
  rfl

theorem decimalValue_take_scaled (d : Nat) (F : List Char) (hFd : IsDigits F) :
    decimalValue (F.take d) * 10 ^ (d - (F.take d).length)
      = decimalValue F * 10 ^ d / 10 ^ F.length := by
  by_cases h : F.length ≤ d
  · rw [List.take_of_length_le h]
    have e : 10 ^ d = 10 ^ (d - F.length) * 10 ^ F.length := by
      rw [← pow_add]
      congr 1
      omega
    rw [e, ← Nat.mul_assoc, Nat.mul_div_cancel _ (by positivity)]
  · have hl : (F.take d).length = d := by
      rw [List.length_take]
      omega
    have hdl : (F.drop d).length = F.length - d := List.length_drop d F
    have hsplit : decimalValue F
        = decimalValue (F.take d) * 10 ^ (F.length - d) + decimalValue (F.drop d) := by
      conv_lhs => rw [← List.take_append_drop d F]
      rw [decimalValue_append, hdl]
    have hlt : decimalValue (F.drop d) < 10 ^ (F.length - d) := by
      have := decimalValue_lt (F.drop d) (fun c hc => hFd c (List.mem_of_mem_drop hc))
      rw [hdl] at this
      exact this
    have e : 10 ^ F.length = 10 ^ (F.length - d) * 10 ^ d := by
      rw [← pow_add]
      congr 1
      omega
    rw [hl, Nat.sub_self, pow_zero, Nat.mul_one, e,
      Nat.mul_div_mul_right _ _ (by positivity), hsplit, Nat.add_comm,
      Nat.add_mul_div_right _ _ (by positivity), Nat.div_eq_of_lt hlt, Nat.zero_add]

theorem fixedDigits_scaled (s : List Char) (d : Nat) (h : s.length ≤ d) (hs : IsDigits s) :
    fixedDigits d (decimalValue s * 10 ^ (d - s.length))
      = s ++ List.replicate (d - s.length) '0' := by
  obtain ⟨j, rfl⟩ : ∃ j, d = s.length + j := ⟨d - s.length, by omega⟩
  rw [Nat.add_sub_cancel_left, fixedDigits_mul_pow, fixedDigits_decimalValue s hs]

/-- C2. `FromDecimal` computes the fixed-point amount, truncating the fraction
digits beyond the `d`-th.  For `1 ≤ d < 128`, non-empty digit strings `I` and
`F`, and `N = int(I)*10^d + floor(int(F)*10^d / 10^len(F))` below `2^120`,
`FromDecimal(I + "." + F, d)` succeeds with `Nano() == N` and `Decimals() == d`;
for `0 ≤ d < 128`, `FromDecimal(I, d)` succeeds with `Nano() == int(I)*10^d`
when that is below `2^120`; and `FromTON("17.98765432111")` has Nano
17987654321. -/
theorem fromDecimal_amount (d : Nat) (hd : d < 128) (I : List Char) (hI : I ≠ [])
    (hId : IsDigits I) :
    (∀ F : List Char, 1 ≤ d → F ≠ [] → IsDigits F →
      decimalValue I * 10 ^ d + decimalValue F * 10 ^ d / 10 ^ F.length < 2 ^ 120 →
      ∃ c, FromDecimal (I ++ '.' :: F) (d : Int) = .ok c ∧
        c.Nano = ((decimalValue I * 10 ^ d + decimalValue F * 10 ^ d / 10 ^ F.length : Nat) : Int)
        ∧ c.Decimals = (d : Int)) ∧
    (decimalValue I * 10 ^ d < 2 ^ 120 →
      ∃ c, FromDecimal I (d : Int) = .ok c ∧
        c.Nano = ((decimalValue I * 10 ^ d : Nat) : Int) ∧ c.Decimals = (d : Int)) ∧
    (∃ c, FromTON "17.98765432111".toList = .ok c ∧ c.Nano = 17987654321) := by
  refine ⟨?_, ?_, ⟨⟨9, some 17987654321⟩, by decide, rfl⟩⟩
  · intro F hd1 hF hFd hN
    rw [fromDecimal_frac d hd1 hd I F hI hId hF hFd, decimalValue_take_scaled d F hFd,
      tooBigForCoins_ofNat _ hN]
    exact ⟨_, rfl, rfl, rfl⟩
  · intro hN
    rw [fromDecimal_whole d hd I hI hId, tooBigForCoins_ofNat _ hN]
    exact ⟨_, rfl, rfl, rfl⟩

/-- C1. Canonical decimal strings round-trip through `FromDecimal` and
`String`.  For `0 ≤ d < 128` and `s = I` or `s = I + "." + F`, where `I` is a
base-10 numeral without leading zeros, `F` is a string of `1..d` decimal
digits whose last digit is not `0`, and the denoted amount
`int(I)*10^d + int(F)*10^(d-len(F))` is below `2^120`, `FromDecimal(s, d)`
succeeds and `FromDecimal(s, d).String() == s`. -/
theorem decimal_round_trip (d : Nat) (hd : d < 128) (I : List Char) (hI : IsNumeral I) :
    (decimalValue I * 10 ^ d < 2 ^ 120 →
      ∃ c, FromDecimal I (d : Int) = .ok c ∧ c.String = some I) ∧
    (∀ F : List Char, 1 ≤ F.length → F.length ≤ d → IsDigits F → F.getLast? ≠ some '0' →
      decimalValue I * 10 ^ d + decimalValue F * 10 ^ (d - F.length) < 2 ^ 120 →
      ∃ c, FromDecimal (I ++ '.' :: F) (d : Int) = .ok c ∧ c.String = some (I ++ '.' :: F)) := by
  obtain ⟨hne, hId, _⟩ := id hI
  constructor
  · intro hN
    rw [fromDecimal_whole d hd I hne hId, tooBigForCoins_ofNat _ hN]
    refine ⟨_, rfl, ?_⟩
    rw [string_whole d _ (Dvd.intro_left _ rfl), Nat.mul_div_cancel _ (by positivity),
      natString_decimalValue I hI]
  · intro F hF1 hFd hFdig hlast hN
    have hFne : F ≠ [] := by
      intro h
      rw [h] at hF1
      simp at hF1
    have htake : F.take d = F := List.take_of_length_le hFd
    have hfr := fromDecimal_frac d (by omega) hd I F hne hId hFne hFdig
    rw [htake, tooBigForCoins_ofNat _ hN] at hfr
    refine ⟨_, hfr, ?_⟩
    obtain ⟨Y, c, rfl⟩ : ∃ Y c, F = Y ++ [c] := by
      rcases List.eq_nil_or_concat F with h | ⟨Y, c, h⟩
      · exact absurd h hFne
      · exact ⟨Y, c, by simpa using h⟩
    have hc0 : c ≠ '0' := by
      intro h
      apply hlast
      rw [h]
      simp
    rw [isDigits_append] at hFdig
    have hcd : c.isDigit = true := hFdig.2 c (List.mem_singleton_self c)
    have hcdot : c ≠ '.' := by
      rintro rfl
      exact absurd hcd (by decide)
    obtain ⟨k, hk, rfl⟩ := digit_cases c hcd
    have hk0 : k ≠ 0 := by
      rintro rfl
      exact hc0 rfl
    have hFd2 : IsDigits (Y ++ [Nat.digitChar k]) := isDigits_append.2 hFdig
    have hFv : 0 < decimalValue (Y ++ [Nat.digitChar k]) := by
      rw [decimalValue_snoc Y k hk]
      omega
    have hFlt := decimalValue_lt _ hFd2
    have hlo : decimalValue (Y ++ [Nat.digitChar k]) * 10 ^ (d - (Y ++ [Nat.digitChar k]).length)
        < 10 ^ d := by
      have e : 10 ^ d = 10 ^ (Y ++ [Nat.digitChar k]).length
          * 10 ^ (d - (Y ++ [Nat.digitChar k]).length) := by
        rw [← pow_add]
        congr 1
        omega
      rw [e]
      exact Nat.mul_lt_mul_of_pos_right hFlt (by positivity)
    have hpos : 0 < decimalValue I * 10 ^ d
        + decimalValue (Y ++ [Nat.digitChar k]) * 10 ^ (d - (Y ++ [Nat.digitChar k]).length) := by
      have : 0 < decimalValue (Y ++ [Nat.digitChar k])
          * 10 ^ (d - (Y ++ [Nat.digitChar k]).length) := Nat.mul_pos hFv (by positivity)
      omega
    have hq : (decimalValue I * 10 ^ d
        + decimalValue (Y ++ [Nat.digitChar k]) * 10 ^ (d - (Y ++ [Nat.digitChar k]).length))
          / 10 ^ d = decimalValue I := by
      rw [Nat.add_comm, Nat.add_mul_div_right _ _ (by positivity), Nat.div_eq_of_lt hlo,
        Nat.zero_add]
    have hfd : fixedDigits d (decimalValue I * 10 ^ d
        + decimalValue (Y ++ [Nat.digitChar k]) * 10 ^ (d - (Y ++ [Nat.digitChar k]).length))
          = (Y ++ [Nat.digitChar k])
            ++ List.replicate (d - (Y ++ [Nat.digitChar k]).length) '0' := by
      rw [fixedDigits_add_mul, fixedDigits_scaled _ d hFd hFd2]
    rw [string_pos d _ hpos, hq, hfd, natString_decimalValue I hI]
    have := cutLoop_digit (I ++ '.' :: Y)
      (List.replicate (d - (Y ++ [Nat.digitChar k]).length) '0') (Nat.digitChar k) hc0 hcdot
      (fun c hc => List.eq_of_mem_replicate hc)
    simp only [List.append_assoc, List.cons_append, List.singleton_append, List.nil_append]
      at this ⊢
    rw [this]

/-- Witness of C1 at `"7.518"` and `"300"` with 9 decimals. -/
theorem decimal_round_trip_witness :
    (∃ c, FromDecimal "300".toList 9 = .ok c ∧ c.String = some "300".toList) ∧
    (∃ c, FromDecimal "7.518".toList 9 = .ok c ∧ c.String = some "7.518".toList) :=
  ⟨((decimal_round_trip 9 (by decide) "300".toList (by decide)).1 (by decide)),
   ((decimal_round_trip 9 (by decide) "7".toList (by decide)).2 "518".toList
      (by decide) (by decide) (by decide) (by decide) (by decide))⟩

/-- Witness of C2 at `"17.98765432111"` and `"7"` with 9 decimals. -/
theorem fromDecimal_amount_witness :
    (∃ c, FromDecimal "17.98765432111".toList 9 = .ok c ∧ c.Nano = 17987654321
      ∧ c.Decimals = 9) ∧
    (∃ c, FromDecimal "7".toList 9 = .ok c ∧ c.Nano = 7000000000 ∧ c.Decimals = 9) :=
  ⟨((fromDecimal_amount 9 (by decide) "17".toList (by decide) (by decide)).1
      "98765432111".toList (by decide) (by decide) (by decide) (by decide)),
   ((fromDecimal_amount 9 (by decide) "7".toList (by decide) (by decide)).2.1 (by decide))⟩

/-- Witness of C6 at the amounts of `"300"` and `"7123.190000"` with 9 decimals. -/
theorem string_shortest_form_witness :
    (∃ s, Coins.String ⟨9, some 300000000000⟩ = some s ∧ IsNumeral s ∧ decimalValue s = 300) ∧
    (∃ s, Coins.String ⟨9, some 7123190000000⟩ = some s ∧ s.count '.' = 1 ∧
      s.takeWhile (fun c => decide (c ≠ '.')) ≠ [] ∧
      s.getLast? ≠ none ∧ s.getLast? ≠ some '0') :=
  ⟨((string_shortest_form ⟨9, some 300000000000⟩ 9 300000000000 rfl rfl).1 (by decide)),
   ((string_shortest_form ⟨9, some 7123190000000⟩ 9 7123190000000 rfl rfl).2 (by decide))⟩

/-- C3. With 9 decimal places the documented examples hold exactly:
`"7.518"` has Nano 7518000000 and prints `"7.518"`; `"0.090000001"` has Nano
90000001 and prints `"0.090000001"`; `"300"` has Nano 300000000000 and prints
`"300"`; `"0"` has Nano 0 and prints `"0"`. -/
theorem fromTON_examples :
    (∃ c, FromTON "7.518".toList = .ok c ∧ c.Nano = 7518000000
      ∧ c.String = some "7.518".toList) ∧
    (∃ c, FromTON "0.090000001".toList = .ok c ∧ c.Nano = 90000001
      ∧ c.String = some "0.090000001".toList) ∧
    (∃ c, FromTON "300".toList = .ok c ∧ c.Nano = 300000000000
      ∧ c.String = some "300".toList) ∧
    (∃ c, FromTON "0".toList = .ok c ∧ c.Nano = 0 ∧ c.String = some "0".toList) :=
  ⟨⟨⟨9, some 7518000000⟩, by decide, by decide, by decide⟩,
   ⟨⟨9, some 90000001⟩, by decide, by decide, by decide⟩,
   ⟨⟨9, some 300000000000⟩, by decide, by decide, by decide⟩,
   ⟨⟨9, some 0⟩, by decide, by decide, by decide⟩⟩

/-- C4, at the failing input. `FromTON("1.123456789.5")` has two `.` characters
and is accepted, with amount 1123456789: the fraction is cut to 9 bytes before
it is checked, so the second `.` is never seen.  The two inputs of the test,
whose second `.` is within the first 9 bytes of the fraction, are refused. -/
theorem fromTON_second_dot_accepted :
    FromTON "1.123456789.5".toList = .ok ⟨9, some 1123456789⟩ ∧
    "1.123456789.5".toList.count '.' = 2 ∧
    FromTON "17.987654.32111".toList = .error .invalidString ∧
    FromTON "0..17".toList = .error .invalidString := by
  decide

/-- C5. `FromDecimal` returns an error, for every decimals value, whenever the
part of the input before the first `.` is empty: every string that is empty or
starts with `.` is rejected. -/
theorem fromDecimal_empty_integer_part (s : List Char) (d : Int)
    (h : s = [] ∨ s.head? = some '.') : ∃ e, FromDecimal s d = .error e := by
  unfold FromDecimal
  by_cases hd : d < 0 ∨ d ≥ 128
  · exact ⟨_, if_pos hd⟩
  · rw [if_neg hd]
    have hs : ∃ tl, SplitN2 s = [] :: tl := by
      rcases h with rfl | h
      · exact ⟨[], rfl⟩
      · cases s with
        | nil => simp at h
        | cons a t =>
          simp only [List.head?_cons, Option.some.injEq] at h
          subst h
          exact ⟨[t], splitN2_dot [] t (by simp)⟩
    obtain ⟨tl, e⟩ := hs
    rw [e]
    exact ⟨_, rfl⟩

/-- Witness of C5 at `".17"` with 9 decimals. -/
theorem fromDecimal_empty_integer_part_witness :
    ∃ e, FromDecimal ".17".toList 9 = .error e :=
  fromDecimal_empty_integer_part ".17".toList 9 (Or.inr (by decide))

/-! ## Integer texts -/

theorem isDigit_of_digitVal_lt (c : Char) (h : digitVal c < 10) : c.isDigit = true := by
  unfold digitVal at h
  split_ifs at h with h1
  · rw [isDigit_iff]
    exact h1
  · omega
  · omega
  · omega

theorem isDigits_of_all (m : List Char)
    (h : m.all (fun ch => decide (digitVal ch < 10)) = true) : IsDigits m := by
  rw [List.all_eq_true] at h
  intro c hc
  exact isDigit_of_digitVal_lt c (of_decide_eq_true (h c hc))

theorem all_of_isDigits (m : List Char) (h : IsDigits m) :
    m.all (fun ch => decide (digitVal ch < 10)) = true := by
  rw [List.all_eq_true]
  intro x hx
  exact decide_eq_true (digitVal_of_isDigit x (h x hx)).2

theorem setString_minus (m : List Char) (hne : m ≠ []) (hd : IsDigits m) :
    SetString ('-' :: m) 10 = some (-((decimalValue m : Nat) : Int)) := by
  unfold SetString
  simp only [true_or, if_true, decide_True]
  rw [if_neg hne, if_pos (all_of_isDigits m hd), scanDigits_eq_decimalValue _ hd]

theorem setString_plus (m : List Char) (hne : m ≠ []) (hd : IsDigits m) :
    SetString ('+' :: m) 10 = some ((decimalValue m : Nat) : Int) := by
  unfold SetString
  have : ¬ ('+' = '-') := by decide
  simp only [or_true, if_true, this, decide_False, Bool.false_eq_true, if_false]
  rw [if_neg hne, if_pos (all_of_isDigits m hd), scanDigits_eq_decimalValue _ hd]

/-- The texts `SetString` accepts in base 10 are the integer texts. -/
theorem setString_ne_none_iff (s : List Char) : SetString s 10 ≠ none ↔ IsIntegerText s := by
  constructor
  · intro h
    cases s with
    | nil => exact absurd rfl h
    | cons c rest =>
      unfold SetString at h
      simp only at h
      by_cases hb : (if c = '-' ∨ c = '+' then rest else c :: rest) = []
      · rw [if_pos hb] at h
        exact absurd rfl h
      · rw [if_neg hb] at h
        by_cases ha : (if c = '-' ∨ c = '+' then rest else c :: rest).all
            (fun ch => decide (digitVal ch < 10)) = true
        · have hdig := isDigits_of_all _ ha
          refine ⟨_, ?_, hb, hdig⟩
          by_cases hc : c = '-' ∨ c = '+'
          · rw [if_pos hc]
            rcases hc with rfl | rfl
            · exact Or.inr (Or.inl rfl)
            · exact Or.inr (Or.inr rfl)
          · rw [if_neg hc]
            exact Or.inl rfl
        · rw [if_neg ha] at h
          exact absurd rfl h
  · rintro ⟨m, (rfl | rfl | rfl), hne, hd⟩
    · rw [setString_digits _ hne hd]
      simp
    · rw [setString_minus _ hne hd]
      simp
    · rw [setString_plus _ hne hd]
      simp

theorem setString_dot (s : List Char) (h : '.' ∈ s) : SetString s 10 = none := by
  by_contra hne
  obtain ⟨m, hs, _, hd⟩ := (setString_ne_none_iff s).1 hne
  have hm : '.' ∈ m := by
    rcases hs with rfl | rfl | rfl
    · exact h
    · rcases List.mem_cons.1 h with h1 | h1
      · exact absurd h1 (by decide)
      · exact h1
    · rcases List.mem_cons.1 h with h1 | h1
      · exact absurd h1 (by decide)
      · exact h1
  exact absurd (hd _ hm) (by decide)

/-- A second `.` among the first `decimals` bytes of the fraction is refused. -/
theorem fromDecimal_second_dot_early (I F : List Char) (d : Nat) (hI : ∀ c ∈ I, c ≠ '.')
    (hF : '.' ∈ F.take d) : ∃ e, FromDecimal (I ++ '.' :: F) (d : Int) = .error e := by
  have hlo : (if ((F.length : Int) > (d : Int)) then F.take (d : Int).toNat else F)
      = F.take d := by
    by_cases h : (F.length : Int) > (d : Int)
    · rw [if_pos h]
      simp
    · rw [if_neg h, List.take_of_length_le (by omega)]
  unfold FromDecimal
  by_cases hd : (d : Int) < 0 ∨ (d : Int) ≥ 128
  · exact ⟨_, if_pos hd⟩
  · rw [if_neg hd, splitN2_dot I F hI]
    cases hs : SetString I 10 with
    | none =>
      simp only [hs]
      exact ⟨_, rfl⟩
    | some hi0 =>
      simp only [hs, hlo, setString_dot _ hF]
      exact ⟨_, rfl⟩

/-- Reading undoes printing: `SetString(x.String(), 10)` is `x`. -/
theorem setString_bigString (x : Int) : SetString (bigString x) 10 = some x := by
  unfold bigString
  by_cases h : x < 0
  · rw [if_pos h, setString_minus _ (natString_ne_nil _) (natString_isDigits _),
      decimalValue_natString]
    congr 1
    omega
  · rw [if_neg h, setString_digits _ (natString_ne_nil _) (natString_isDigits _),
      decimalValue_natString]
    congr 1
    omega

theorem bigString_isNumeralOf (x : Int) : IsNumeralOf (bigString x) x := by
  unfold IsNumeralOf bigString
  by_cases h : x < 0
  · rw [if_pos h, if_pos h]
    refine ⟨_, rfl, natString_isNumeral _, ?_⟩
    rw [decimalValue_natString]
    omega
  · rw [if_neg h, if_neg h]
    refine ⟨natString_isNumeral _, ?_⟩
    rw [decimalValue_natString]
    omega

theorem bigString_chars (x : Int) : ∀ c ∈ bigString x, c = '-' ∨ c.isDigit = true := by
  intro c hc
  unfold bigString at hc
  by_cases h : x < 0
  · rw [if_pos h, List.mem_cons] at hc
    rcases hc with rfl | hc
    · exact Or.inl rfl
    · exact Or.inr (natString_isDigits _ c hc)
  · rw [if_neg h] at hc
    exact Or.inr (natString_isDigits _ c hc)

theorem bigString_ne_nil (x : Int) : bigString x ≠ [] := by
  unfold bigString
  by_cases h : x < 0
  · rw [if_pos h]
    simp
  · rw [if_neg h]
    exact natString_ne_nil _

theorem quoteByte_plain (c : Char) (h : c = '-' ∨ c.isDigit = true) : quoteByte c = [c] := by
  rcases h with rfl | h
  · decide
  · obtain ⟨k, hk, rfl⟩ := digit_cases c h
    revert k
    decide

theorem flatMap_quoteByte (s : List Char) (h : ∀ c ∈ s, c = '-' ∨ c.isDigit = true) :
    s.flatMap quoteByte = s := by
  induction s with
  | nil => rfl
  | cons a t ih =>
    rw [List.flatMap_cons, quoteByte_plain a (h a (List.mem_cons_self _ _)),
      ih (fun c hc => h c (List.mem_cons_of_mem _ hc))]
    rfl

theorem sprintfQ_bigString (x : Int) : sprintfQ (bigString x) = '"' :: (bigString x ++ ['"']) := by
  unfold sprintfQ
  rw [flatMap_quoteByte _ (bigString_chars x)]

/-! ## JSON -/

theorem unmarshalJSON_quoted (g : Coins) (body : List Char) :
    g.UnmarshalJSON ('"' :: (body ++ ['"']))
      = match FromNanoTONStr body with
        | .error err => (g, some err)
        | .ok coins => (coins, none) := by
  have h1 : ¬ (('"' :: (body ++ ['"'])).length < 2
      ∨ ('"' :: (body ++ ['"'])).head? ≠ some '"'
      ∨ ('"' :: (body ++ ['"'])).getLast? ≠ some '"') := by
    have hl : ('"' :: (body ++ ['"'])).getLast? = some '"' := by
      rw [← List.cons_append, List.getLast?_append]
      simp
    rw [hl]
    simp
  have h2 : (('"' :: (body ++ ['"'])).take (('"' :: (body ++ ['"'])).length - 1)).drop 1
      = body := by
    simp
  unfold Coins.UnmarshalJSON
  rw [if_neg h1]
  simp only [h2]

/-- C7. JSON round trip.  For every Coins `c` (an unset amount included)
`MarshalJSON` does not fail and returns the base-10 numeral of `c.Nano()`
between double quotes, and `UnmarshalJSON` applied to those bytes, on any
receiver, succeeds and yields a Coins whose `Nano()` equals `c.Nano()` and
whose decimals are 9. -/
theorem marshal_unmarshal_round_trip (c r : Coins) :
    ∃ body, c.MarshalJSON = .ok ('"' :: (body ++ ['"'])) ∧ IsNumeralOf body c.Nano ∧
      (r.UnmarshalJSON ('"' :: (body ++ ['"']))).2 = none ∧
      (r.UnmarshalJSON ('"' :: (body ++ ['"']))).1.Nano = c.Nano ∧
      (r.UnmarshalJSON ('"' :: (body ++ ['"']))).1.Decimals = 9 := by
  refine ⟨bigString c.Nano, ?_, bigString_isNumeralOf _, ?_⟩
  · unfold Coins.MarshalJSON
    rw [sprintfQ_bigString]
  · rw [unmarshalJSON_quoted]
    unfold FromNanoTONStr
    rw [setString_bigString]
    exact ⟨rfl, rfl, rfl⟩

/-- C8. `UnmarshalJSON` returns an error whenever the data is shorter than 2
bytes, does not both start and end with a double quote, or the text between
the quotes is not a valid base-10 integer (as for the empty input, `""` and
`"123a"`); and whenever it returns an error the receiver is left as it was. -/
theorem unmarshalJSON_errors (g : Coins) (data : List Char) :
    ((data.length < 2 ∨ data.head? ≠ some '"' ∨ data.getLast? ≠ some '"') →
      (g.UnmarshalJSON data).2 ≠ none) ∧
    (∀ body, data = '"' :: (body ++ ['"']) → ¬ IsIntegerText body →
      (g.UnmarshalJSON data).2 ≠ none) ∧
    ((g.UnmarshalJSON data).2 ≠ none → (g.UnmarshalJSON data).1 = g) ∧
    (g.UnmarshalJSON "".toList).2 ≠ none ∧
    (g.UnmarshalJSON "\"\"".toList).2 ≠ none ∧
    (g.UnmarshalJSON "\"123a\"".toList).2 ≠ none := by
  have ha : (data.length < 2 ∨ data.head? ≠ some '"' ∨ data.getLast? ≠ some '"') →
      (g.UnmarshalJSON data).2 ≠ none := by
    intro h
    unfold Coins.UnmarshalJSON
    rw [if_pos h]
    simp
  have hb : ∀ (g : Coins) (body : List Char), ¬ IsIntegerText body →
      (g.UnmarshalJSON ('"' :: (body ++ ['"']))).2 ≠ none := by
    intro g body hb
    rw [← setString_ne_none_iff, not_not] at hb
    rw [unmarshalJSON_quoted]
    unfold FromNanoTONStr
    rw [hb]
    simp
  refine ⟨ha, ?_, ?_, ?_, ?_, ?_⟩
  · rintro body rfl hbody
    exact hb g body hbody
  · unfold Coins.UnmarshalJSON
    by_cases h : data.length < 2 ∨ data.head? ≠ some '"' ∨ data.getLast? ≠ some '"'
    · rw [if_pos h]
      intro _
      rfl
    · rw [if_neg h]
      simp only
      cases FromNanoTONStr ((data.take (data.length - 1)).drop 1) with
      | error e => intro _; rfl
      | ok c => intro hc; exact absurd rfl hc
  · unfold Coins.UnmarshalJSON
    rw [if_pos (Or.inl (by decide))]
    simp
  · exact hb g [] (by
      rw [← setString_ne_none_iff]
      decide)
  · exact hb g "123a".toList (by
      rw [← setString_ne_none_iff]
      decide)

/-- Witness of C8 at `"123a"` between quotes, on a receiver holding 5 with 6 decimals. -/
theorem unmarshalJSON_errors_witness :
    (Coins.UnmarshalJSON ⟨6, some 5⟩ "\"123a\"".toList).2 ≠ none ∧
    (Coins.UnmarshalJSON ⟨6, some 5⟩ "\"123a\"".toList).1 = ⟨6, some 5⟩ ∧
    (Coins.UnmarshalJSON ⟨6, some 5⟩ "1".toList).2 ≠ none :=
  ⟨(unmarshalJSON_errors ⟨6, some 5⟩ "\"123a\"".toList).2.1 "123a".toList rfl (by
      rw [← setString_ne_none_iff]
      decide),
   (unmarshalJSON_errors ⟨6, some 5⟩ "\"123a\"".toList).2.2.1 (by decide),
   (unmarshalJSON_errors ⟨6, some 5⟩ "1".toList).1 (Or.inl (by decide))⟩

/-! ## Database values -/

theorem bigString_not_hex (x : Int) : (bigString x).take 2 ≠ ['0', 'x'] := by
  intro h
  have hm : 'x' ∈ (bigString x).take 2 := by
    rw [h]
    simp
  rcases bigString_chars x 'x' (List.mem_of_mem_take hm) with h1 | h1
  · exact absurd h1 (by decide)
  · exact absurd h1 (by decide)

theorem scan_bigString (r : Coins) (x : Int) :
    r.Scan (.string (bigString x)) = (⟨r.decimals, some x⟩, none) := by
  unfold Coins.Scan
  simp only [bigString_not_hex x, decide_False, Bool.false_eq_true, if_false,
    setString_bigString]

/-- C9. Database round trip.  For every Coins `c` (an unset amount counts as
0) `Value()` does not fail, and `Scan` of the value it returns, on any receiver
`r`, succeeds and sets the amount of `r` to `c.Nano()`; if the decimals of `r`
equal those of `c`, the two print the same afterwards. -/
theorem value_scan_round_trip (c r : Coins) :
    ∃ v, c.Value = .ok v ∧ (r.Scan v).2 = none ∧ (r.Scan v).1.val = some c.Nano ∧
      (r.Scan v).1.Nano = c.Nano ∧
      (r.decimals = c.decimals → (r.Scan v).1.String = c.String) := by
  obtain ⟨cd, cv⟩ := c
  cases cv with
  | none =>
    refine ⟨.string ['0'], rfl, ?_⟩
    have h := scan_bigString r 0
    have e : bigString 0 = ['0'] := rfl
    rw [e] at h
    rw [h]
    refine ⟨rfl, rfl, rfl, ?_⟩
    intro _
    rfl
  | some x =>
    refine ⟨.string (bigString x), rfl, ?_⟩
    rw [scan_bigString]
    refine ⟨rfl, rfl, rfl, ?_⟩
    intro h
    simp only at h
    rw [h]

/-- Witness of C9 at the amount 123456789 with 6 decimals, scanned into an
empty receiver with 6 decimals. -/
theorem value_scan_round_trip_witness :
    ∃ v, Coins.Value ⟨6, some 123456789⟩ = .ok v ∧
      (Coins.Scan ⟨6, none⟩ v).1.String = Coins.String ⟨6, some 123456789⟩ := by
  obtain ⟨v, h1, _, _, _, h5⟩ := value_scan_round_trip ⟨6, some 123456789⟩ ⟨6, none⟩
  exact ⟨v, h1, h5 rfl⟩

/-- C10. `Scan` by kind of input: nil sets the amount to 0; an `int64` sets it
to that number; a byte slice is read in base 10; a string that starts with `0x`
is read in base 16 from the bytes after the prefix (`"0x1a2b3c"` gives
`0x1a2b3c`); any other string is read in base 10; a string or byte slice that
does not parse (`"not-a-number"`) and a value of any other type (a `float64`)
give an error.  Reading is `SetString` of math/big. -/
theorem scan_by_kind (r : Coins) :
    r.Scan .nil = (⟨r.decimals, some 0⟩, none) ∧
    (∀ n, r.Scan (.int64 n) = (⟨r.decimals, some n⟩, none)) ∧
    (∀ b, r.Scan (.bytes b) = match SetString b 10 with
      | some v => (⟨r.decimals, some v⟩, none)
      | none => (r, some .invalidNumericFormat)) ∧
    (∀ t, r.Scan (.string ('0' :: 'x' :: t)) = match SetString t 16 with
      | some v => (⟨r.decimals, some v⟩, none)
      | none => (r, some .invalidNumericFormat)) ∧
    (∀ s, (¬ ∃ t, s = '0' :: 'x' :: t) → r.Scan (.string s) = match SetString s 10 with
      | some v => (⟨r.decimals, some v⟩, none)
      | none => (r, some .invalidNumericFormat)) ∧
    (∀ ty, r.Scan (.other ty) = (r, some .unsupportedType)) ∧
    r.Scan (.string "0x1a2b3c".toList) = (⟨r.decimals, some 0x1a2b3c⟩, none) ∧
    r.Scan (.string "987654321".toList) = (⟨r.decimals, some 987654321⟩, none) ∧
    r.Scan (.bytes "123000000000".toList) = (⟨r.decimals, some 123000000000⟩, none) ∧
    (r.Scan (.string "not-a-number".toList)).2 ≠ none ∧
    (r.Scan (.bytes "not-a-number".toList)).2 ≠ none ∧
    (r.Scan (.other "float64".toList)).2 ≠ none := by
  refine ⟨rfl, fun _ => rfl, ?_, ?_, ?_, fun _ => rfl, ?_, ?_, ?_, ?_, ?_, ?_⟩
  · intro b
    cases h : SetString b 10 <;> simp [Coins.Scan, h]
  · intro t
    cases h : SetString t 16 <;> simp [Coins.Scan, h]
  · intro s hs
    have hp : s.take 2 ≠ ['0', 'x'] := by
      intro h
      apply hs
      match s, h with
      | a :: b :: t, h =>
        simp only [List.take, List.cons.injEq, and_true] at h
        exact ⟨t, by rw [h.1, h.2]⟩
    cases h : SetString s 10 <;> simp [Coins.Scan, hp, h]
  · have e : SetString "1a2b3c".toList 16 = some 0x1a2b3c := by decide
    unfold Coins.Scan
    simp only [String.toList, List.take, decide_True, if_true, List.drop]
    rw [show SetString ['1', 'a', '2', 'b', '3', 'c'] 16 = some 0x1a2b3c from e]
  · have e : SetString "987654321".toList 10 = some 987654321 := by decide
    unfold Coins.Scan
    have hp : "987654321".toList.take 2 ≠ ['0', 'x'] := by decide
    simp only [hp, decide_False, Bool.false_eq_true, if_false, e]
  · have e : SetString "123000000000".toList 10 = some 123000000000 := by decide
    unfold Coins.Scan
    simp only [e]
  · have e : SetString "not-a-number".toList 10 = none := by decide
    unfold Coins.Scan
    have hp : "not-a-number".toList.take 2 ≠ ['0', 'x'] := by decide
    simp only [hp, decide_False, Bool.false_eq_true, if_false, e]
    simp
  · have e : SetString "not-a-number".toList 10 = none := by decide
    unfold Coins.Scan
    simp only [e]
    simp
  · simp [Coins.Scan]

/-- Witness of C10 at the string `"42"`, which does not start with `0x`, on a
receiver with 9 decimals. -/
theorem scan_by_kind_witness :
    Coins.Scan ⟨9, none⟩ (.string "42".toList) = (⟨9, some 42⟩, none) :=
  (scan_by_kind ⟨9, none⟩).2.2.2.2.1 "42".toList (by
    rintro ⟨t, h⟩
    have h2 : "42".toList.head? = some '0' := congrArg List.head? h
    exact absurd h2 (by decide))

/-! ## The size limit -/

/-- Every Coins that `FromDecimal` returns has the decimals asked for, which are
in `[0,128)`, and an amount that passed the size check. -/
theorem fromDecimal_ok (s : List Char) (d : Int) (c : Coins) (h : FromDecimal s d = .ok c) :
    ∃ v, c = ⟨d, some v⟩ ∧ tooBigForCoins v = false ∧ 0 ≤ d ∧ d < 128 := by
  unfold FromDecimal at h
  by_cases hd : d < 0 ∨ d ≥ 128
  · rw [if_pos hd] at h
    cases h
  · rw [if_neg hd] at h
    have hfin : ∀ hi : Int,
        (if tooBigForCoins hi = true then (Except.error CoinsError.tooBig : Except CoinsError Coins)
          else .ok ⟨d, some hi⟩) = .ok c →
        ∃ v, c = ⟨d, some v⟩ ∧ tooBigForCoins v = false ∧ 0 ≤ d ∧ d < 128 := by
      intro hi hh
      by_cases ht : tooBigForCoins hi = true
      · rw [if_pos ht] at hh
        cases hh
      · rw [if_neg ht] at hh
        injection hh with hh
        exact ⟨hi, hh.symm, by simpa using ht, by omega, by omega⟩
    split at h
    · cases h
    · split at h
      · cases h
      · simp only at h
        split at h
        · split at h
          · cases h
          · exact hfin _ h
        · exact hfin _ h

theorem fromNano_eq (v d : Int) :
    FromNano v d = if tooBigForCoins v = true then .error .tooBig else .ok ⟨d, some v⟩ := rfl

/-- C11. `FromNano` enforces the 15-byte limit exactly: `FromNano(v, d)` returns
an error if and only if `|v| ≥ 2^120`, and otherwise succeeds with `Nano() == v`
and `Decimals() == d`.  `FromDecimal` applies the same limit to the amount it
computed: what it returns has magnitude below `2^120`, and on digit strings it
returns what `FromNano` returns on the amount of C2. -/
theorem fromNano_limit (v d : Int) :
    ((∃ e, FromNano v d = .error e) ↔ 2 ^ 120 ≤ v.natAbs) ∧
    (v.natAbs < 2 ^ 120 → ∃ c, FromNano v d = .ok c ∧ c.Nano = v ∧ c.Decimals = d) ∧
    (∀ s c, FromDecimal s d = .ok c → c.Nano.natAbs < 2 ^ 120) ∧
    (∀ (n : Nat) (I : List Char), d = (n : Int) → n < 128 → I ≠ [] → IsDigits I →
      FromDecimal I d = FromNano ((decimalValue I * 10 ^ n : Nat) : Int) d ∧
      ∀ F : List Char, 1 ≤ n → F ≠ [] → IsDigits F →
        FromDecimal (I ++ '.' :: F) d
          = FromNano ((decimalValue I * 10 ^ n
              + decimalValue F * 10 ^ n / 10 ^ F.length : Nat) : Int) d) := by
  refine ⟨?_, ?_, ?_, ?_⟩
  · rw [← tooBigForCoins_iff, fromNano_eq]
    by_cases ht : tooBigForCoins v = true
    · rw [if_pos ht]
      exact ⟨fun _ => ht, fun _ => ⟨_, rfl⟩⟩
    · rw [if_neg ht]
      constructor
      · rintro ⟨e, he⟩
        cases he
      · intro h
        exact absurd h ht
  · intro hv
    have ht : ¬ tooBigForCoins v = true := by
      rw [tooBigForCoins_iff]
      omega
    rw [fromNano_eq, if_neg ht]
    exact ⟨_, rfl, rfl, rfl⟩
  · intro s c h
    obtain ⟨x, rfl, hx, _, _⟩ := fromDecimal_ok s d c h
    have ht : ¬ tooBigForCoins x = true := by
      rw [hx]
      simp
    rw [tooBigForCoins_iff] at ht
    simp only [Coins.Nano, Option.getD_some]
    omega
  · rintro n I rfl hn hI hId
    refine ⟨by rw [fromDecimal_whole n hn I hI hId, fromNano_eq], ?_⟩
    intro F hn1 hF hFd
    rw [fromDecimal_frac n hn1 hn I F hI hId hF hFd, decimalValue_take_scaled n F hFd,
      fromNano_eq]

/-- Witness of C11 at `2^120 - 1`, `2^120` and the strings `"5"` and `"5.25"` with 9 decimals. -/
theorem fromNano_limit_witness :
    (∃ c, FromNano 1329227995784915872903807060280344575 9 = .ok c ∧
      c.Nano = 1329227995784915872903807060280344575 ∧ c.Decimals = 9) ∧
    (∃ e, FromNano 1329227995784915872903807060280344576 9 = .error e) ∧
    (FromDecimal "5".toList 9 = FromNano 5000000000 9) ∧
    (FromDecimal "5.25".toList 9 = FromNano 5250000000 9) :=
  ⟨(fromNano_limit 1329227995784915872903807060280344575 9).2.1 (by decide),
   (fromNano_limit 1329227995784915872903807060280344576 9).1.2 (by decide),
   ((fromNano_limit 0 9).2.2.2 9 "5".toList rfl (by decide) (by decide) (by decide)).1,
   ((fromNano_limit 0 9).2.2.2 9 "5".toList rfl (by decide) (by decide) (by decide)).2
      "25".toList (by decide) (by decide) (by decide)⟩

/-! ## Parsing what was printed -/

theorem fromDecimal_string_nat (d v : Nat) (hd : d < 128) (hlt : v < 2 ^ 120) :
    ∃ s, Coins.String ⟨(d : Int), some (v : Int)⟩ = some s ∧
      FromDecimal s (d : Int) = .ok ⟨(d : Int), some (v : Int)⟩ := by
  by_cases hdv : 10 ^ d ∣ v
  · refine ⟨_, string_whole d v hdv, ?_⟩
    rw [fromDecimal_whole d hd _ (natString_ne_nil _) (natString_isDigits _),
      decimalValue_natString, Nat.div_mul_cancel hdv, tooBigForCoins_ofNat v hlt]
    rfl
  · obtain ⟨Y, c, Z, e, _, hz, hs⟩ := string_frac d v hdv
    refine ⟨_, hs, ?_⟩
    have hd1 : 1 ≤ d := by
      rcases Nat.eq_zero_or_pos d with h0 | h0
      · subst h0
        exact absurd (one_dvd v) hdv
      · exact h0
    have hlen : (Y ++ [c]).length + Z.length = d := by
      have := congrArg List.length e
      rw [fixedDigits_length] at this
      simp only [List.length_append, List.length_cons, List.length_singleton, List.length_nil]
        at this ⊢
      omega
    have hFd : IsDigits (Y ++ [c]) := by
      have := fixedDigits_isDigits d v
      rw [e, isDigits_append, isDigits_cons] at this
      exact isDigits_append.2 ⟨this.1, by
        intro x hx
        rw [List.mem_singleton] at hx
        rw [hx]
        exact this.2.1⟩
    have htake : (Y ++ [c]).take d = Y ++ [c] := List.take_of_length_le (by omega)
    have hval : decimalValue (Y ++ [c]) * 10 ^ (d - (Y ++ [c]).length) = v % 10 ^ d := by
      have e2 : Y ++ c :: Z = (Y ++ [c]) ++ Z := by simp
      have e3 : decimalValue (Y ++ c :: Z) = decimalValue (Y ++ [c]) * 10 ^ Z.length := by
        rw [e2, decimalValue_append (Y ++ [c]) Z, decimalValue_zeros Z hz, Nat.add_zero]
      have e4 : d - (Y ++ [c]).length = Z.length := by omega
      rw [← decimalValue_fixedDigits d v, e, e3, e4]
    have hsum : decimalValue (natString (v / 10 ^ d)) * 10 ^ d
        + decimalValue (Y ++ [c]) * 10 ^ (d - (Y ++ [c]).length) = v := by
      rw [hval, decimalValue_natString]
      exact Nat.div_add_mod' v (10 ^ d)
    rw [fromDecimal_frac d hd1 hd _ _ (natString_ne_nil _) (natString_isDigits _) (by simp) hFd,
      htake, hsum, tooBigForCoins_ofNat v hlt]
    rfl

/-- C12. Parsing undoes printing: for every Coins with decimals `d` in `[0,128)`
and amount `v` with `0 ≤ v < 2^120` (an unset amount is 0), `String()` returns a
string on which `FromDecimal(·, d)` succeeds with `Nano() == v` and
`Decimals() == d`. -/
theorem parse_undoes_print (g : Coins) (d v : Nat) (hd : g.decimals = (d : Int))
    (hd128 : d < 128) (hv : g.Nano = (v : Int)) (hlt : v < 2 ^ 120) :
    ∃ s c, g.String = some s ∧ FromDecimal s (d : Int) = .ok c ∧ c.Nano = (v : Int) ∧
      c.Decimals = (d : Int) := by
  obtain ⟨gd, gv⟩ := g
  simp only at hd
  subst hd
  cases gv with
  | none =>
    have hv0 : v = 0 := by
      simp only [Coins.Nano, Option.getD_none] at hv
      omega
    subst hv0
    obtain ⟨s, h1, h2⟩ := fromDecimal_string_nat d 0 hd128 hlt
    have h3 : Coins.String ⟨(d : Int), some ((0 : Nat) : Int)⟩ = some ['0'] := rfl
    rw [h3] at h1
    refine ⟨['0'], ⟨(d : Int), some ((0 : Nat) : Int)⟩, rfl, ?_, rfl, rfl⟩
    rw [Option.some.inj h1]
    exact h2
  | some x =>
    simp only [Coins.Nano, Option.getD_some] at hv
    subst hv
    obtain ⟨s, h1, h2⟩ := fromDecimal_string_nat d v hd128 hlt
    exact ⟨s, _, h1, h2, rfl, rfl⟩

/-- Witness of C12 at the amount 7123190000000 with 9 decimals. -/
theorem parse_undoes_print_witness :
    ∃ s c, Coins.String ⟨9, some 7123190000000⟩ = some s ∧ FromDecimal s 9 = .ok c ∧
      c.Nano = 7123190000000 ∧ c.Decimals = 9 :=
  parse_undoes_print ⟨9, some 7123190000000⟩ 9 7123190000000 rfl (by decide) rfl (by decide)

/-! ## The shape of `FromDecimal` -/

theorem exists_first_dot (s : List Char) :
    (∀ c ∈ s, c ≠ '.') ∨ ∃ a b, s = a ++ '.' :: b ∧ ∀ c ∈ a, c ≠ '.' := by
  induction s with
  | nil => exact Or.inl (by simp)
  | cons x t ih =>
    by_cases hx : x = '.'
    · subst hx
      exact Or.inr ⟨[], t, rfl, by simp⟩
    · rcases ih with h | ⟨a, b, rfl, ha⟩
      · left
        intro c hc
        rcases List.mem_cons.1 hc with rfl | hc
        · exact hx
        · exact h c hc
      · right
        refine ⟨x :: a, b, rfl, ?_⟩
        intro c hc
        rcases List.mem_cons.1 hc with rfl | hc
        · exact hx
        · exact ha c hc

/-- Without a `.` the input is read as a whole number of units. -/
theorem fromDecimal_no_dot (s : List Char) (d : Int) (hd0 : 0 ≤ d) (hd1 : d < 128)
    (hs : ∀ c ∈ s, c ≠ '.') :
    FromDecimal s d = match SetString s 10 with
      | none => .error .invalidString
      | some hi0 => FromNano (hi0 * bigExp 10 d) d := by
  have hdec : ¬ (d < 0 ∨ d ≥ 128) := by omega
  unfold FromDecimal
  rw [if_neg hdec, splitN2_no_dot s hs]
  cases h : SetString s 10 with
  | none => simp only [h]
  | some hi0 =>
    simp only [h]
    rfl

/-- With a `.` the units are read before it and the fraction from the first
`d` bytes after it. -/
theorem fromDecimal_dot (a b : List Char) (d : Int) (hd0 : 0 ≤ d) (hd1 : d < 128)
    (ha : ∀ c ∈ a, c ≠ '.') :
    FromDecimal (a ++ '.' :: b) d = match SetString a 10 with
      | none => .error .invalidString
      | some hi0 =>
        match SetString (b.take d.toNat) 10 with
        | none => .error .invalidString
        | some lo0 =>
          FromNano (hi0 * bigExp 10 d + lo0 * bigExp 10
            ((d - (leadZeroes (b.take d.toNat) : Int)) - ((bigString lo0).length : Int))) d := by
  have hdec : ¬ (d < 0 ∨ d ≥ 128) := by omega
  have hlo : (if ((b.length : Int) > d) then b.take d.toNat else b) = b.take d.toNat := by
    by_cases h : (b.length : Int) > d
    · rw [if_pos h]
    · rw [if_neg h, List.take_of_length_le (by omega)]
  unfold FromDecimal
  rw [if_neg hdec, splitN2_dot a b ha]
  cases h : SetString a 10 with
  | none => simp only [h]
  | some hi0 =>
    simp only [h, hlo]
    cases h2 : SetString (b.take d.toNat) 10 with
    | none => simp only [h2]
    | some lo0 =>
      simp only [h2]
      rfl

theorem fromNano_ok (v d : Int) (c : Coins) (h : FromNano v d = .ok c) : c = ⟨d, some v⟩ := by
  rw [fromNano_eq] at h
  by_cases ht : tooBigForCoins v = true
  · rw [if_pos ht] at h
    cases h
  · rw [if_neg ht] at h
    injection h with h
    exact h.symm

theorem setString_nonneg (s : List Char) (b : Nat) (v : Int) (h : SetString s b = some v)
    (hs : '-' ∉ s) : 0 ≤ v := by
  cases s with
  | nil => cases h
  | cons c rest =>
    have hc : c ≠ '-' := by
      rintro rfl
      exact hs (List.mem_cons_self _ _)
    unfold SetString at h
    simp only [hc, decide_False, Bool.false_eq_true, if_false] at h
    split_ifs at h
    all_goals
      injection h with h
      rw [← h]
      exact Int.ofNat_nonneg _

theorem bigExp_pos (y : Int) : 0 < bigExp 10 y := by
  unfold bigExp
  by_cases h : y ≤ 0
  · rw [if_pos h]
    exact Int.one_pos
  · rw [if_neg h]
    positivity

/-- C13, at the counterexample. `FromDecimal("-5", 9)` is accepted and its amount
is negative. -/
theorem fromDecimal_negative_accepted :
    FromDecimal "-5".toList 9 = .ok ⟨9, some (-5000000000)⟩ ∧
    ¬ (0 ≤ (Coins.mk 9 (some (-5000000000))).Nano) := by
  decide

/-- C13, amended. Every amount `FromDecimal` accepts from an input without a
`-` is non-negative: for every string `s` that has no `-` and every decimals
`d`, if `FromDecimal(s, d)` returns without error then `Nano() >= 0`. -/
theorem fromDecimal_nonneg (s : List Char) (d : Int) (c : Coins) (hs : '-' ∉ s)
    (h : FromDecimal s d = .ok c) : 0 ≤ c.Nano := by
  obtain ⟨_, _, _, hd0, hd1⟩ := fromDecimal_ok s d c h
  rcases exists_first_dot s with hnd | ⟨a, b, rfl, ha⟩
  · rw [fromDecimal_no_dot s d hd0 hd1 hnd] at h
    cases hS : SetString s 10 with
    | none =>
      rw [hS] at h
      cases h
    | some hi0 =>
      rw [hS] at h
      rw [fromNano_ok _ _ _ h]
      have h0 := setString_nonneg s 10 hi0 hS hs
      exact mul_nonneg h0 (le_of_lt (bigExp_pos _))
  · rw [fromDecimal_dot a b d hd0 hd1 ha] at h
    have hsa : '-' ∉ a := fun hm => hs (List.mem_append_left _ hm)
    have hsb : '-' ∉ b.take d.toNat := fun hm =>
      hs (List.mem_append_right _ (List.mem_cons_of_mem _ (List.mem_of_mem_take hm)))
    cases hS : SetString a 10 with
    | none =>
      rw [hS] at h
      cases h
    | some hi0 =>
      rw [hS] at h
      cases hL : SetString (b.take d.toNat) 10 with
      | none =>
        rw [hL] at h
        cases h
      | some lo0 =>
        rw [hL] at h
        rw [fromNano_ok _ _ _ h]
        have h0 := setString_nonneg a 10 hi0 hS hsa
        have h1 := setString_nonneg _ 10 lo0 hL hsb
        exact add_nonneg (mul_nonneg h0 (le_of_lt (bigExp_pos _)))
          (mul_nonneg h1 (le_of_lt (bigExp_pos _)))

/-- Witness of C13 (amended) at `"7.518"` with 9 decimals. -/
theorem fromDecimal_nonneg_witness : 0 ≤ (Coins.mk 9 (some 7518000000)).Nano :=
  fromDecimal_nonneg "7.518".toList 9 ⟨9, some 7518000000⟩ (by decide) (by decide)

/-! ## Totality of `String` -/

/-- With decimals that are not negative `String` does not panic. -/
theorem string_total_of_nonneg (g : Coins) (h : 0 ≤ g.decimals) : g.String ≠ none := by
  unfold Coins.String
  cases hv : g.val with
  | none => simp
  | some v =>
    simp only
    by_cases h0 : bigString v = ['0']
    · rw [if_pos h0]
      simp
    · rw [if_neg h0]
      by_cases h1 : ((bigString v).length : Int) - g.decimals ≤ 0
      · rw [if_pos h1, if_neg (by omega)]
        simp
      · rw [if_neg h1, if_neg (by omega)]
        simp

/-- On every Coins that `FromDecimal` returns `String` does not panic. -/
theorem fromDecimal_string_total (s : List Char) (d : Int) (c : Coins)
    (h : FromDecimal s d = .ok c) : c.String ≠ none := by
  obtain ⟨v, rfl, _, hd0, _⟩ := fromDecimal_ok s d c h
  exact string_total_of_nonneg _ hd0

/-- C14, at the failing input. `FromNano(5, -1)` returns a Coins without error,
and `String` panics on it: the slice bound `len("5") - (-1) = 2` is beyond the
length of `"5"`. -/
theorem fromNano_string_panics :
    FromNano 5 (-1) = .ok ⟨-1, some 5⟩ ∧ Coins.String ⟨-1, some 5⟩ = none := by
  decide

/-- C15, at the failing input. The numeral of `2^120` is accepted by
`FromNanoTONStr`, by `UnmarshalJSON` and by `Scan`, with the amount `2^120`,
which `FromNano` refuses. -/
theorem size_limit_not_enforced :
    FromNanoTONStr "1329227995784915872903807060280344576".toList
      = .ok ⟨9, some 1329227995784915872903807060280344576⟩ ∧
    Coins.UnmarshalJSON ⟨9, none⟩ "\"1329227995784915872903807060280344576\"".toList
      = (⟨9, some 1329227995784915872903807060280344576⟩, none) ∧
    Coins.Scan ⟨9, none⟩ (.string "1329227995784915872903807060280344576".toList)
      = (⟨9, some 1329227995784915872903807060280344576⟩, none) ∧
    Coins.Scan ⟨9, none⟩ (.bytes "1329227995784915872903807060280344576".toList)
      = (⟨9, some 1329227995784915872903807060280344576⟩, none) ∧
    (1329227995784915872903807060280344576 : Int) = 2 ^ 120 ∧
    FromNano 1329227995784915872903807060280344576 9 = .error .tooBig := by
  refine ⟨by decide, by decide, by decide, by decide, by norm_num, ?_⟩
  rw [fromNano_eq, if_pos ((tooBigForCoins_iff _).2 (by decide))]

/-! ## The frame of `Scan` -/

/-- C16. `Scan` changes only the amount: for every receiver and every input
value the decimals after `Scan` are the decimals before, and when `Scan` returns
an error the amount is unchanged as well. -/
theorem scan_frame (r : Coins) (value : DriverValue) :
    (r.Scan value).1.decimals = r.decimals ∧
    ((r.Scan value).2 ≠ none → (r.Scan value).1.val = r.val ∧ (r.Scan value).1 = r) := by
  cases value with
  | nil => exact ⟨rfl, fun h => absurd rfl h⟩
  | int64 v => exact ⟨rfl, fun h => absurd rfl h⟩
  | other t => exact ⟨rfl, fun _ => ⟨rfl, rfl⟩⟩
  | bytes v =>
    unfold Coins.Scan
    cases h : SetString v 10 with
    | none => simp [h]
    | some x => simp [h]
  | string v =>
    unfold Coins.Scan
    simp only
    cases h : SetString (if decide (v.take 2 = ['0', 'x']) = true then v.drop 2 else v)
        (if decide (v.take 2 = ['0', 'x']) = true then 16 else 10) with
    | none => simp [h]
    | some x => simp [h]

/-- Witness of C16 at the string `"not-a-number"`, on a receiver holding 5 with 6 decimals. -/
theorem scan_frame_witness :
    (Coins.Scan ⟨6, some 5⟩ (.string "not-a-number".toList)).1.val = some 5 ∧
    (Coins.Scan ⟨6, some 5⟩ (.string "not-a-number".toList)).1 = ⟨6, some 5⟩ :=
  (scan_frame ⟨6, some 5⟩ (.string "not-a-number".toList)).2 (by decide)

/-! ## Comparison -/

theorem bigCmp_neg (x y : Int) : bigCmp x y = -bigCmp y x := by
  unfold bigCmp
  by_cases h1 : x < y
  · rw [if_pos h1, if_neg (by omega), if_neg (by omega)]
  · rw [if_neg h1]
    by_cases h2 : x = y
    · rw [if_pos h2, if_neg (by omega), if_pos h2.symm]
      rfl
    · rw [if_neg h2, if_pos (by omega)]
      rfl

/-- C17. `Compare` orders amounts of equal precision and refuses mixed
precision.  For `a` and `b` with equal decimals `a.Compare(b)` is `-1`, `0` or
`+1` as `a.Nano()` is below, equal to or above `b.Nano()` (an unset amount is 0),
so `a.Compare(b) == -b.Compare(a)`, and `a.Compare(a) == 0`; when the decimals
differ `Compare` panics, also when both amounts are zero. -/
theorem compare_order (a b : Coins) :
    (a.decimals = b.decimals →
      (a.Nano < b.Nano → a.Compare b = some (-1)) ∧
      (a.Nano = b.Nano → a.Compare b = some 0) ∧
      (b.Nano < a.Nano → a.Compare b = some 1) ∧
      (∃ x y, a.Compare b = some x ∧ b.Compare a = some y ∧ x = -y)) ∧
    a.Compare a = some 0 ∧
    (a.decimals ≠ b.decimals → a.Compare b = none) ∧
    Coins.Compare ⟨9, some 0⟩ ⟨6, some 0⟩ = none ∧
    Coins.Compare ⟨9, none⟩ ⟨9, some 0⟩ = some 0 := by
  refine ⟨?_, ?_, ?_, by decide, by decide⟩
  · intro hd
    have hab : a.Compare b = some (bigCmp a.Nano b.Nano) := by
      unfold Coins.Compare
      rw [if_neg (by simpa using hd)]
    have hba : b.Compare a = some (bigCmp b.Nano a.Nano) := by
      unfold Coins.Compare
      rw [if_neg (by simpa using hd.symm)]
    refine ⟨?_, ?_, ?_, ⟨_, _, hab, hba, bigCmp_neg _ _⟩⟩
    · intro h
      rw [hab, bigCmp, if_pos h]
    · intro h
      rw [hab, bigCmp, if_neg (by omega), if_pos h]
    · intro h
      rw [hab, bigCmp, if_neg (by omega), if_neg (by omega)]
  · unfold Coins.Compare
    rw [if_neg (by simp), bigCmp, if_neg (by omega), if_pos rfl]
  · intro hd
    unfold Coins.Compare
    rw [if_pos hd]

/-- Witness of C17 at the amounts 5 and 7 with 9 decimals, and at zero amounts
with 9 and 6 decimals. -/
theorem compare_order_witness :
    Coins.Compare ⟨9, some 5⟩ ⟨9, some 7⟩ = some (-1) ∧
    Coins.Compare ⟨9, some 7⟩ ⟨9, some 5⟩ = some 1 ∧
    Coins.Compare ⟨9, some 0⟩ ⟨6, some 0⟩ = none :=
  ⟨((compare_order ⟨9, some 5⟩ ⟨9, some 7⟩).1 rfl).1 (by decide),
   ((compare_order ⟨9, some 7⟩ ⟨9, some 5⟩).1 rfl).2.2.1 (by decide),
   (compare_order ⟨9, some 0⟩ ⟨6, some 0⟩).2.2.1 (by decide)⟩

/-! ## Fractions and the number of decimals -/

/-- C18. With `decimals = 0` no fractional part is accepted: for every string
that contains a `.`, `FromDecimal(s, 0)` returns an error, also when the bytes
after the `.` are all digits (`"5.0"`); whereas for `1 ≤ d < 128` the bytes of
the fraction beyond the `d`-th are dropped: the result is that of the input cut
after `d` fraction bytes. -/
theorem fromDecimal_fraction_cut :
    (∀ s : List Char, '.' ∈ s → ∃ e, FromDecimal s 0 = .error e) ∧
    FromDecimal "5.0".toList 0 = .error .invalidString ∧
    (∀ (d : Nat) (I F : List Char), 1 ≤ d → d < 128 → (∀ c ∈ I, c ≠ '.') →
      FromDecimal (I ++ '.' :: F) (d : Int) = FromDecimal (I ++ '.' :: F.take d) (d : Int)) ∧
    FromDecimal "1.23456".toList 2 = .ok ⟨2, some 123⟩ := by
  refine ⟨?_, by decide, ?_, by decide⟩
  · intro s hs
    rcases exists_first_dot s with h | ⟨a, b, rfl, ha⟩
    · exact absurd rfl (h _ hs)
    · rw [fromDecimal_dot a b 0 (le_refl _) (by decide) ha]
      cases h : SetString a 10 with
      | none => exact ⟨_, rfl⟩
      | some hi0 =>
        have h0 : SetString (b.take (0 : Int).toNat) 10 = none := by
          simp [setString_nil]
        simp only [h0]
        exact ⟨_, rfl⟩
  · intro d I F hd1 hd hI
    rw [fromDecimal_dot I F d (by omega) (by omega) hI,
      fromDecimal_dot I (F.take d) d (by omega) (by omega) hI]
    simp only [Int.toNat_ofNat, List.take_take, Nat.min_self]

/-- Witness of C18 at `"5.0"` with 0 decimals and at `"1.23456"` with 2 decimals. -/
theorem fromDecimal_fraction_cut_witness :
    (∃ e, FromDecimal "5.0".toList 0 = .error e) ∧
    FromDecimal "1.23456".toList 2 = FromDecimal "1.23".toList 2 :=
  ⟨fromDecimal_fraction_cut.1 "5.0".toList (by decide),
   fromDecimal_fraction_cut.2.2.1 2 "1".toList "23456".toList (by decide) (by decide)
     (by decide)⟩

/-! ## Cursors -/

theorem beginParseRefs_eq_map (refs : List Cell) :
    beginParseRefs refs = refs.map Cell.BeginParse := by
  induction refs with
  | nil => rw [beginParseRefs, List.map_nil]
  | cons r rest ih => rw [beginParseRefs, ih, List.map_cons]

/-- C19. `BeginParse` builds a cursor tree that mirrors the cell tree: for
every cell it returns (being a total function, it terminates) a cursor whose
read offset `loadedSz` is 0, whose bit size and data bytes are those of the
cell, and whose child cursors are, in the same order and number as the
references of the cell, the results of `BeginParse` on each reference. -/
theorem beginParse_mirrors (c : Cell) :
    c.BeginParse.loadedSz = 0 ∧ c.BeginParse.bitsSz = c.bitsSz ∧
    c.BeginParse.data = c.data ∧
    c.BeginParse.refs = c.refs.map Cell.BeginParse ∧
    c.BeginParse.refs.length = c.refs.length := by
  obtain ⟨b, ix, d, r⟩ := c
  have hr : (Cell.mk b ix d r).BeginParse.refs = r.map Cell.BeginParse := by
    rw [Cell.BeginParse, LoadCell.refs, beginParseRefs_eq_map]
  refine ⟨by rw [Cell.BeginParse, LoadCell.loadedSz], by rw [Cell.BeginParse, LoadCell.bitsSz, Cell.bitsSz],
    by rw [Cell.BeginParse, LoadCell.data, Cell.data], hr, ?_⟩
  rw [hr, List.length_map]
  rfl

end Tlb
